import Mathlib

/-!
Verification development for the timetable CSP solver (`csp_timetable.py`).

The solver's data model and operations are shallowly embedded below:

* Python dicts keyed by strings become association lists; lookup takes the
  last binding (a dict comprehension built from a list keeps the value of the
  last occurrence of a key), and in-place dict update becomes `setD`.
* The mutable search state threaded through `recurse2` (assignment, domains,
  backtrack and try counters) becomes an explicit `SState` record.
* Wall-clock time is modelled by an abstract monotone clock: every call to
  the `timeout` predicate advances the clock by one tick and compares the
  elapsed ticks with the configured budget.  This captures exactly the
  monotonicity of `time.perf_counter` that the temporal claims rely on
  (elapsed time strictly grows between consecutive deadline checks, and the
  first check already observes a strictly positive elapsed time).
* Unbounded recursion becomes fuel-indexed recursion; exceptional paths
  (a `KeyError` from a missing course id, or exhausted fuel) yield `none`.
* `SState.triesAtTimeout` is a ghost observation recording the value of the
  tries counter at the first deadline check that observes the deadline
  exceeded; the algorithm never reads it.  It only serves to state the
  temporal claims about what may happen after the deadline fires.
-/

namespace CSP

/-- A course: identifier, owning teacher, occupied groups, required size. -/
structure Course where
  id : String
  teacher : String
  groups : List String
  size : Nat
deriving Repr, DecidableEq

/-- A room: identifier and capacity. -/
structure Room where
  id : String
  capacity : Nat
deriving Repr, DecidableEq

/-- A candidate value: (timeslot identifier, room identifier). -/
abbrev Value := String × String

/-- A partial assignment, as an insertion-ordered association list
(the embedding of a Python dict mapping course id to value). -/
abbrev Assignment := List (String × Value)

/-- The domain store: course id to list of still-legal candidate values. -/
abbrev Domains := List (String × List Value)

/-- Dict lookup on an association list: the value of the LAST binding of the
key, mirroring that later entries of a Python dict comprehension win. -/
def lookupLast? {α : Type} : List (String × α) → String → Option α
  | [], _ => none
  | p :: rest, k =>
    match lookupLast? rest k with
    | some v => some v
    | none => if p.1 = k then some p.2 else none

/-- The dict `{c.id: c for c in courses}` used by `backtrack_search`. -/
def courseById (courses : List Course) (i : String) : Option Course :=
  lookupLast? (courses.map (fun c => (c.id, c))) i

/-- `domains[k]` (defined on the keys actually present; the engine only ever
looks up keys of its domain store). -/
def lookupD (d : Domains) (k : String) : List Value :=
  (lookupLast? d k).getD []

/-- `domains[k] = v`: in-place dict update of an existing key. -/
def setD : Domains → String → List Value → Domains
  | [], _, _ => []
  | p :: rest, k, v => (if p.1 = k then (k, v) else p) :: setD rest k v

/-- `var in assignment` (dict key membership). -/
def hasKey (a : Assignment) (k : String) : Bool :=
  a.any (fun p => p.1 = k)

/-- `build_domains`: for each course, all (timeslot, room) pairs whose room
capacity is at least the course size, timeslot-major, rooms in given order. -/
def build_domains (courses : List Course) (timeslots : List String)
    (rooms : List Room) : Domains :=
  courses.map (fun c =>
    (c.id, timeslots.flatMap (fun ts =>
      (rooms.filter (fun r => c.size ≤ r.capacity)).map (fun r => (ts, r.id)))))

/-- The loop of `violates` over the items of the partial assignment.
`none` models the `KeyError` raised on an unresolvable course id. -/
def violatesAux (cbid : String → Option Course) (c : Course) (ts room : String) :
    Assignment → Option Bool
  | [] => some false
  | (otherId, (ots, oroom)) :: rest =>
    if ots ≠ ts then violatesAux cbid c ts room rest
    else
      match cbid otherId with
      | none => none
      | some other =>
        if other.teacher = c.teacher then some true
        else if other.groups.any (fun g => g ∈ c.groups) then some true
        else if oroom = room then some true
        else violatesAux cbid c ts room rest

/-- `violates(assignment, course_by_id, course_id, value)`: does assigning
`value` to `course_id` conflict with the existing partial assignment? -/
def violates (cbid : String → Option Course) (assignment : Assignment)
    (courseId : String) (v : Value) : Option Bool :=
  match cbid courseId with
  | none => none
  | some c => violatesAux cbid c v.1 v.2 assignment

/-- The accumulator loop of `select_mrv` (`best`, `best_size`). -/
def select_mrvAux (domains : Domains) :
    List String → Option String → Nat → Option String
  | [], best, _ => best
  | var :: rest, best, bestSize =>
    let s := (lookupD domains var).length
    if s < bestSize then select_mrvAux domains rest (some var) s
    else select_mrvAux domains rest best bestSize

/-- `select_mrv(unassigned, domains)`: unassigned variable with the smallest
current domain, ties to the earliest; sentinel initial size `10^9`. -/
def select_mrv (unassigned : List String) (domains : Domains) : Option String :=
  select_mrvAux domains unassigned none (10 ^ 9)

/-- Inner loop of `lcv_order`: scan `other`'s domain for the first value that
shares `v`'s timeslot and conflicts (same room, same teacher, or overlapping
groups).  Course lookups happen only when actually reached, as in the source. -/
def lcvScan (cbid : String → Option Course) (var other : String) (v : Value) :
    List Value → Option Bool
  | [] => some false
  | ov :: rest =>
    if ov.1 ≠ v.1 then lcvScan cbid var other v rest
    else if ov.2 = v.2 then some true
    else
      match cbid var, cbid other with
      | some co, some co2 =>
        if co.teacher = co2.teacher
            || co.groups.any (fun g => g ∈ co2.groups) then some true
        else lcvScan cbid var other v rest
      | _, _ => none

/-- Middle loop of `lcv_order`: the elimination score of candidate `v`,
adding one per conflicting other unassigned variable. -/
def lcvScore (cbid : String → Option Course) (var : String) (domains : Domains)
    (v : Value) : List String → Option Nat
  | [] => some 0
  | o :: rest =>
    if o = var then lcvScore cbid var domains v rest
    else
      match lcvScan cbid var o v (lookupD domains o) with
      | none => none
      | some b =>
        match lcvScore cbid var domains v rest with
        | none => none
        | some n => some (if b then n + 1 else n)

/-- Outer loop of `lcv_order`: build the `scored` list in domain order. -/
def scoreVals (cbid : String → Option Course) (var : String) (domains : Domains)
    (unassigned : List String) : List Value → Option (List (Nat × Value))
  | [] => some []
  | v :: vs =>
    match lcvScore cbid var domains v unassigned with
    | none => none
    | some n =>
      match scoreVals cbid var domains unassigned vs with
      | none => none
      | some rest => some ((n, v) :: rest)

/-- `lcv_order(var, domains, unassigned, courses_by_id)`: the domain of `var`
sorted stably by ascending elimination score.  Python's `sort` is stable, and
a stable sort by a key is unique, so `insertionSort` on the scores embeds it
exactly. -/
def lcv_order (cbid : String → Option Course) (var : String) (domains : Domains)
    (unassigned : List String) : Option (List Value) :=
  match scoreVals cbid var domains unassigned (lookupD domains var) with
  | none => none
  | some scored =>
    some ((List.insertionSort (fun a b => a.1 ≤ b.1) scored).map (fun p => p.2))

/-- The forward-checking filter building `newdom` for one other variable. -/
def filterVals (cbid : String → Option Course) (a : Assignment) (other : String) :
    List Value → Option (List Value)
  | [] => some []
  | ov :: rest =>
    match violates cbid a other ov with
    | none => none
    | some true => filterVals cbid a other rest
    | some false =>
      match filterVals cbid a other rest with
      | none => none
      | some vs => some (ov :: vs)

/-- The forward-checking pruning loop: prune every other unassigned variable's
domain against the augmented assignment, saving each previous domain; stop
with `failure = true` as soon as one pruned domain becomes empty.  Returns
(new domain store, saved entries in saving order, failure flag). -/
def prune (cbid : String → Option Course) (a : Assignment) (var : String) :
    List String → Domains → Option (Domains × List (String × List Value) × Bool)
  | [], d => some (d, [], false)
  | o :: rest, d =>
    if o = var then prune cbid a var rest d
    else
      let od := lookupD d o
      match filterVals cbid a o od with
      | none => none
      | some newdom =>
        let d1 := setD d o newdom
        if newdom.isEmpty then some (d1, [(o, od)], true)
        else
          match prune cbid a var rest d1 with
          | none => none
          | some (d2, saved, fail) => some (d2, (o, od) :: saved, fail)

/-- `for k,v in saved.items(): domains[k] = v`. -/
def restoreSaved : List (String × List Value) → Domains → Domains
  | [], d => d
  | kv :: rest, d => restoreSaved rest (setD d kv.1 kv.2)

/-- The mutable state of one `backtrack_search` invocation.  `ticks` is the
abstract clock (number of deadline checks so far); `triesAtTimeout` is the
ghost observation described in the header. -/
structure SState where
  assignment : Assignment
  domains : Domains
  backtracks : Nat
  tries : Nat
  ticks : Nat
  triesAtTimeout : Option Nat
deriving Repr, DecidableEq

/-- The candidate loop of `recurse2`: try each ordered value in turn;
`rec` is the recursive call at one smaller fuel. -/
def tryVals (cbid : String → Option Course) (fc : Bool)
    (rec : SState → Option (Bool × SState)) (var : String) (un : List String) :
    List Value → SState → Option (Bool × SState)
  | [], s => some (false, { s with backtracks := s.backtracks + 1 })
  | val :: rest, s =>
    let s1 : SState := { s with tries := s.tries + 1 }
    match violates cbid s1.assignment var val with
    | none => none
    | some true => tryVals cbid fc rec var un rest s1
    | some false =>
      let s2 : SState := { s1 with assignment := s1.assignment ++ [(var, val)] }
      match (if fc then prune cbid s2.assignment var un s2.domains
             else some (s2.domains, [], false)) with
      | none => none
      | some (d2, saved, failure) =>
        if failure then
          tryVals cbid fc rec var un rest
            { s2 with domains := restoreSaved saved d2,
                      assignment := s2.assignment.eraseP (fun p => p.1 = var) }
        else
          match rec { s2 with domains := d2 } with
          | none => none
          | some (true, s') => some (true, s')
          | some (false, s4) =>
            tryVals cbid fc rec var un rest
              { s4 with domains := restoreSaved saved s4.domains,
                        assignment := s4.assignment.eraseP (fun p => p.1 = var) }

/-- `recurse2`: the backtracking driver actually invoked by the source
(`recurse` is dead code there).  Checks the deadline, then completeness,
selects a variable by MRV, orders its values by LCV and tries them. -/
def recurse2 (cbid : String → Option Course) (ids : List String) (fc : Bool)
    (limit : Nat) : Nat → SState → Option (Bool × SState)
  | 0, _ => none
  | fuel + 1, s =>
    let s1 : SState := { s with ticks := s.ticks + 1 }
    if limit < s1.ticks then
      some (false, { s1 with triesAtTimeout :=
        match s1.triesAtTimeout with
        | some t => some t
        | none => some s1.tries })
    else if s1.assignment.length = ids.length then some (true, s1)
    else
      let un := ids.filter (fun v => !(hasKey s1.assignment v))
      match select_mrv un s1.domains with
      | none => some (false, s1)
      | some var =>
        match lcv_order cbid var s1.domains un with
        | none => none
        | some ordered =>
          if ordered.isEmpty then
            some (false, { s1 with backtracks := s1.backtracks + 1 })
          else tryVals cbid fc (recurse2 cbid ids fc limit fuel) var un ordered s1

/-- The record returned by `backtrack_search` (`time_ms` is the final value of
the abstract clock; `triesAtTimeout` is the ghost observation). -/
structure SearchResult where
  found : Bool
  time_ms : Nat
  backtracks : Nat
  assignments_tried : Nat
  solution : Assignment
  triesAtTimeout : Option Nat
deriving Repr, DecidableEq

/-- `backtrack_search(courses, domains_init, forward_checking, time_limit)`:
fresh state, run `recurse2`, package the result.  The fuel
`courses.length + 1` is proved sufficient below. -/
def backtrack_search (courses : List Course) (domains_init : Domains)
    (fc : Bool) (limit : Nat) : Option SearchResult :=
  let ids := courses.map (fun c => c.id)
  let s0 : SState := ⟨[], domains_init, 0, 0, 0, none⟩
  match recurse2 (courseById courses) ids fc limit (courses.length + 1) s0 with
  | none => none
  | some (ok, s') =>
    some ⟨ok, s'.ticks, s'.backtracks, s'.tries, s'.assignment, s'.triesAtTimeout⟩

/-! ### Dictionary lemmas -/

theorem keys_setD (d : Domains) (k : String) (v : List Value) :
    (setD d k v).map Prod.fst = d.map Prod.fst := by
  induction d with
  | nil => rfl
  | cons p rest ih =>
    simp only [setD, List.map_cons]
    by_cases h : p.1 = k
    · simp [h, ih]
    · simp [h, ih]

theorem lookupLast?_eq_none (d : Domains) (k : String)
    (h : k ∉ d.map Prod.fst) : lookupLast? d k = none := by
  induction d with
  | nil => rfl
  | cons p rest ih =>
    simp only [List.map_cons, List.mem_cons] at h
    push_neg at h
    simp only [lookupLast?, ih h.2]
    simp [Ne.symm h.1]

theorem setD_not_mem (d : Domains) (k : String) (v : List Value)
    (h : k ∉ d.map Prod.fst) : setD d k v = d := by
  induction d with
  | nil => rfl
  | cons p rest ih =>
    simp only [List.map_cons, List.mem_cons] at h
    push_neg at h
    simp only [setD, if_neg (Ne.symm h.1), ih h.2]

theorem lookupLast?_setD (d : Domains) (k o : String) (v : List Value) :
    lookupLast? (setD d o v) k =
      (lookupLast? d k).map (fun w => if k = o then v else w) := by
  induction d with
  | nil => rfl
  | cons p rest ih =>
    simp only [setD, lookupLast?, ih]
    rcases hrest : lookupLast? rest k with _ | w
    · simp only [Option.map_none]
      by_cases hpo : p.1 = o
      · by_cases hpk : p.1 = k
        · subst hpk
          simp [hpo]
        · have : ¬(o = k) := fun h => hpk (hpo.trans h)
          simp [hpo, this, hpk]
      · by_cases hpk : p.1 = k
        · subst hpk
          simp [hpo, Ne.symm hpo]
        · simp [hpo, hpk]
    · simp

theorem lookupD_setD (d : Domains) (k o : String) (v : List Value) :
    lookupD (setD d o v) k =
      match lookupLast? d k with
      | none => []
      | some w => if k = o then v else w := by
  unfold lookupD
  rw [lookupLast?_setD]
  rcases lookupLast? d k with _ | w
  · rfl
  · by_cases h : k = o <;> simp [h]

theorem setD_setD (d : Domains) (o : String) (v w : List Value) :
    setD (setD d o v) o w = setD d o w := by
  induction d with
  | nil => rfl
  | cons p rest ih =>
    simp only [setD]
    by_cases h : p.1 = o
    · simp [h, ih]
    · simp [h, ih]

theorem setD_comm (d : Domains) (o o' : String) (v w : List Value)
    (h : o ≠ o') : setD (setD d o v) o' w = setD (setD d o' w) o v := by
  induction d with
  | nil => rfl
  | cons p rest ih =>
    simp only [setD]
    by_cases h1 : p.1 = o
    · have h2 : ¬(p.1 = o') := fun hh => h (h1.symm.trans hh)
      simp [h1, h2, h, ih]
    · by_cases h2 : p.1 = o'
      · simp [h1, h2, Ne.symm h, ih]
      · simp [h1, h2, ih]

/-- Keys-nodup dictionaries: writing back the looked-up value is a no-op. -/
theorem setD_lookup_self (d : Domains) (o : String)
    (hnd : (d.map Prod.fst).Nodup) :
    setD d o (lookupD d o) = d := by
  induction d with
  | nil => rfl
  | cons p rest ih =>
    simp only [List.map_cons, List.nodup_cons] at hnd
    by_cases h : p.1 = o
    · have hnone : lookupLast? rest o = none := by
        apply lookupLast?_eq_none
        rw [← h]
        exact hnd.1
      have hval : lookupD (p :: rest) o = p.2 := by
        simp [lookupD, lookupLast?, hnone, h]
      rw [hval]
      simp only [setD, if_pos h]
      rw [setD_not_mem rest o p.2 (h ▸ hnd.1)]
      rw [← h]
    · have hval : lookupD (p :: rest) o = lookupD rest o := by
        simp only [lookupD, lookupLast?]
        rcases hrest : lookupLast? rest o with _ | w
        · simp [h]
        · simp
      rw [hval]
      simp only [setD, if_neg h]
      rw [ih hnd.2]

theorem restoreSaved_setD_comm (saved : List (String × List Value))
    (d : Domains) (o : String) (v : List Value)
    (h : ∀ q ∈ saved, q.1 ≠ o) :
    restoreSaved saved (setD d o v) = setD (restoreSaved saved d) o v := by
  induction saved generalizing d with
  | nil => rfl
  | cons q qs ih =>
    simp only [restoreSaved]
    rw [setD_comm d o q.1 v q.2 (Ne.symm (h q (by simp)))]
    exact ih (setD d q.1 q.2) (fun r hr => h r (by simp [hr]))

theorem eraseP_append_key (a : Assignment) (var : String) (val : Value)
    (h : hasKey a var = false) :
    (a ++ [(var, val)]).eraseP (fun p => p.1 = var) = a := by
  induction a with
  | nil => simp [List.eraseP]
  | cons p rest ih =>
    simp only [hasKey, List.any_cons, Bool.or_eq_false_iff] at h
    simp only [List.cons_append]
    rw [List.eraseP_cons_of_neg (by simpa using h.1)]
    rw [ih (by simpa [hasKey] using h.2)]

end CSP

namespace CSP

/-! ### Characterization of the constraint checker -/

/-- One existing assignment entry's conflict with assigning `(ts, room)` to
course `c`: the body of the `violates` loop, as a Boolean. -/
def conflictsB (cbid : String → Option Course) (c : Course) (ts room : String)
    (p : String × Value) : Bool :=
  p.2.1 = ts &&
    (match cbid p.1 with
     | none => false
     | some o =>
       o.teacher = c.teacher || o.groups.any (fun g => g ∈ c.groups)
         || p.2.2 = room)

theorem violatesAux_char (cbid : String → Option Course) (c : Course)
    (ts room : String) :
    ∀ a : Assignment, (∀ p ∈ a, p.2.1 = ts → (cbid p.1).isSome) →
      violatesAux cbid c ts room a =
        some (a.any (conflictsB cbid c ts room)) := by
  intro a
  induction a with
  | nil => intro _; rfl
  | cons p rest ih =>
    intro hres
    obtain ⟨otherId, ots, oroom⟩ := p
    rw [violatesAux]
    by_cases hts : ots = ts
    · rw [if_neg (by simp [hts])]
      have hsome : (cbid otherId).isSome :=
        hres (otherId, (ots, oroom)) (List.mem_cons_self _ _) hts
      rcases hcb : cbid otherId with _ | other
      · rw [hcb] at hsome; simp at hsome
      · simp only [hcb]
        by_cases ht : other.teacher = c.teacher
        · rw [if_pos ht]
          simp [conflictsB, hcb, hts, ht]
        · rw [if_neg ht]
          by_cases hg : other.groups.any (fun g => g ∈ c.groups)
          · rw [if_pos hg]
            simp [conflictsB, hcb, hts, ht, hg]
          · rw [if_neg hg]
            by_cases hr : oroom = room
            · rw [if_pos hr]
              simp [conflictsB, hcb, hts, ht, hg, hr]
            · rw [if_neg hr]
              rw [ih (fun q hq => hres q (by simp [hq]))]
              simp only [List.any_cons]
              have : conflictsB cbid c ts room (otherId, ots, oroom) = false := by
                simp [conflictsB, hcb, ht, hr]
                intro _
                simpa using hg
              rw [this]
              simp
    · rw [if_pos (by simp [hts])]
      rw [ih (fun q hq => hres q (by simp [hq]))]
      simp only [List.any_cons]
      have : conflictsB cbid c ts room (otherId, ots, oroom) = false := by
        simp [conflictsB, hts]
      rw [this]
      simp

theorem violatesAux_false (cbid : String → Option Course) (c : Course)
    (ts room : String) :
    ∀ a : Assignment, violatesAux cbid c ts room a = some false →
      ∀ p ∈ a, p.2.1 = ts → ∀ o, cbid p.1 = some o →
        o.teacher ≠ c.teacher ∧ (∀ g ∈ o.groups, g ∉ c.groups) ∧
          p.2.2 ≠ room := by
  intro a
  induction a with
  | nil => intro _ p hp; simp at hp
  | cons q rest ih =>
    intro h p hp hpts o ho
    obtain ⟨otherId, ots, oroom⟩ := q
    rw [violatesAux] at h
    by_cases hts : ots = ts
    · rw [if_neg (by simp [hts])] at h
      rcases hcb : cbid otherId with _ | other
      · simp only [hcb] at h
        exact absurd h (by simp)
      · simp only [hcb] at h
        by_cases ht : other.teacher = c.teacher
        · rw [if_pos ht] at h; exact absurd h (by simp)
        · rw [if_neg ht] at h
          by_cases hg : other.groups.any (fun g => g ∈ c.groups)
          · rw [if_pos hg] at h; exact absurd h (by simp)
          · rw [if_neg hg] at h
            by_cases hr : oroom = room
            · rw [if_pos hr] at h; exact absurd h (by simp)
            · rw [if_neg hr] at h
              rcases List.mem_cons.mp hp with heq | hmem
              · subst heq
                simp only at ho
                rw [hcb] at ho
                obtain rfl : other = o := by injection ho
                refine ⟨ht, ?_, hr⟩
                intro g hg1 hg2
                apply hg
                simp only [List.any_eq_true]
                exact ⟨g, hg1, by simpa using hg2⟩
              · exact ih h p hmem hpts o ho
    · rw [if_pos (by simp [hts])] at h
      rcases List.mem_cons.mp hp with heq | hmem
      · subst heq
        exact absurd hpts hts
      · exact ih h p hmem hpts o ho

/--
C6. `violates(assignment, variable, candidateValue)` is the pure conflict
predicate of the spec: defined (`isSome`, i.e. no failure) whenever the
candidate variable and the assigned variables resolve in `course_by_id`
(under the spec's data model every variable in an Assignment is a real
Variable, so this is the claim's totality), and it answers `true` exactly
when some already-assigned variable shares the candidate's timeslot and has a
matching teacher, an intersecting group set, or the same room.  The loop
short-circuits at the first conflicting entry, which the `List.any`
characterization `violatesAux_char` mirrors operationally.
-/
theorem c6_violates_spec (cbid : String → Option Course) (a : Assignment)
    (x : String) (v : Value) (c : Course) (hc : cbid x = some c)
    (hres : ∀ p ∈ a, (cbid p.1).isSome) :
    (violates cbid a x v).isSome ∧
    (violates cbid a x v = some true ↔
      ∃ p ∈ a, p.2.1 = v.1 ∧ ∃ o, cbid p.1 = some o ∧
        (o.teacher = c.teacher ∨ (∃ g ∈ o.groups, g ∈ c.groups) ∨
          p.2.2 = v.2)) := by
  have hchar := violatesAux_char cbid c v.1 v.2 a (fun p hp _ => hres p hp)
  have hv : violates cbid a x v = some (a.any (conflictsB cbid c v.1 v.2)) := by
    unfold violates
    rw [hc]
    exact hchar
  rw [hv]
  refine ⟨by simp, ?_⟩
  simp only [Option.some_inj]
  constructor
  · intro h
    obtain ⟨p, hp, hconf⟩ := List.any_eq_true.mp h
    obtain ⟨o, ho⟩ := Option.isSome_iff_exists.mp (hres p hp)
    simp only [conflictsB, ho, Bool.and_eq_true, decide_eq_true_eq,
      Bool.or_eq_true, List.any_eq_true] at hconf
    exact ⟨p, hp, hconf.1, o, ho, by
      rcases hconf.2 with (ht | hg) | hr
      · exact Or.inl ht
      · exact Or.inr (Or.inl (by
          obtain ⟨g, hg1, hg2⟩ := hg
          exact ⟨g, hg1, by simpa using hg2⟩))
      · exact Or.inr (Or.inr hr)⟩
  · rintro ⟨p, hp, hts, o, ho, hdisj⟩
    apply List.any_eq_true.mpr
    refine ⟨p, hp, ?_⟩
    simp only [conflictsB, ho, Bool.and_eq_true, decide_eq_true_eq,
      Bool.or_eq_true, List.any_eq_true]
    refine ⟨hts, ?_⟩
    rcases hdisj with ht | hg | hr
    · exact Or.inl (Or.inl ht)
    · obtain ⟨g, hg1, hg2⟩ := hg
      exact Or.inl (Or.inr ⟨g, hg1, by simpa using hg2⟩)
    · exact Or.inr hr

/-- Witness for C6 at a concrete input: course "B" at timeslot "1" conflicts
with already-assigned "A" (same room), and the checker is defined. -/
theorem c6_violates_spec_witness :
    (violates (courseById [⟨"A", "t", ["g"], 1⟩, ⟨"B", "u", ["h"], 1⟩])
        [("A", ("1", "r"))] "B" ("1", "r")).isSome ∧
    (violates (courseById [⟨"A", "t", ["g"], 1⟩, ⟨"B", "u", ["h"], 1⟩])
        [("A", ("1", "r"))] "B" ("1", "r") = some true ↔
      ∃ p ∈ [("A", ("1", "r"))], p.2.1 = "1" ∧
        ∃ o, courseById [⟨"A", "t", ["g"], 1⟩, ⟨"B", "u", ["h"], 1⟩] p.1 =
            some o ∧
          (o.teacher = "u" ∨ (∃ g ∈ o.groups, g ∈ ["h"]) ∨ p.2.2 = "r")) :=
  c6_violates_spec _ _ _ _ ⟨"B", "u", ["h"], 1⟩ (by rfl) (by decide)

end CSP

namespace CSP

/-! ### MRV selection -/

theorem select_mrvAux_mem (domains : Domains) :
    ∀ (l : List String) (best : Option String) (bsize : Nat) (v : String),
      select_mrvAux domains l best bsize = some v → v ∈ l ∨ best = some v := by
  intro l
  induction l with
  | nil => intro best bsize v h; exact Or.inr h
  | cons x rest ih =>
    intro best bsize v h
    simp only [select_mrvAux] at h
    by_cases hc : (lookupD domains x).length < bsize
    · rw [if_pos hc] at h
      rcases ih (some x) _ v h with hm | hb
      · exact Or.inl (List.mem_cons_of_mem _ hm)
      · obtain rfl : x = v := by injection hb
        exact Or.inl (List.mem_cons_self _ _)
    · rw [if_neg hc] at h
      rcases ih best _ v h with hm | hb
      · exact Or.inl (List.mem_cons_of_mem _ hm)
      · exact Or.inr hb

theorem select_mrv_mem (un : List String) (domains : Domains) (v : String)
    (h : select_mrv un domains = some v) : v ∈ un := by
  rcases select_mrvAux_mem domains un none _ v h with hm | hb
  · exact hm
  · exact absurd hb (by simp)

theorem select_mrvAux_ge (domains : Domains) :
    ∀ (l : List String) (best : Option String) (bsize : Nat),
      (∀ v ∈ l, bsize ≤ (lookupD domains v).length) →
      select_mrvAux domains l best bsize = best := by
  intro l
  induction l with
  | nil => intro best bsize _; rfl
  | cons x rest ih =>
    intro best bsize h
    simp only [select_mrvAux]
    rw [if_neg (not_lt.mpr (h x (List.mem_cons_self _ _)))]
    exact ih best bsize (fun v hv => h v (List.mem_cons_of_mem _ hv))

theorem select_mrvAux_found (domains : Domains) :
    ∀ (l : List String) (best : Option String) (bsize : Nat),
      (∃ v ∈ l, (lookupD domains v).length < bsize) →
      ∃ pre y suf, l = pre ++ y :: suf ∧
        select_mrvAux domains l best bsize = some y ∧
        (lookupD domains y).length < bsize ∧
        (∀ v ∈ l, (lookupD domains y).length ≤ (lookupD domains v).length) ∧
        (∀ v ∈ pre, (lookupD domains y).length < (lookupD domains v).length) := by
  intro l
  induction l with
  | nil =>
    intro best bsize h
    obtain ⟨v, hv, _⟩ := h
    exact absurd hv (by simp)
  | cons x rest ih =>
    intro best bsize h
    simp only [select_mrvAux]
    by_cases hc : (lookupD domains x).length < bsize
    · rw [if_pos hc]
      by_cases hrest : ∃ v ∈ rest,
          (lookupD domains v).length < (lookupD domains x).length
      · obtain ⟨pre, y, suf, hdec, h1, h2, h3, h4⟩ := ih (some x) _ hrest
        refine ⟨x :: pre, y, suf, by rw [hdec]; rfl, h1, lt_trans h2 hc, ?_, ?_⟩
        · intro v hv
          rcases List.mem_cons.mp hv with rfl | hm
          · exact le_of_lt h2
          · exact h3 v hm
        · intro v hv
          rcases List.mem_cons.mp hv with rfl | hm
          · exact h2
          · exact h4 v hm
      · push_neg at hrest
        rw [select_mrvAux_ge domains rest (some x) _ hrest]
        refine ⟨[], x, rest, rfl, rfl, hc, ?_, by simp⟩
        intro v hv
        rcases List.mem_cons.mp hv with rfl | hm
        · exact le_refl _
        · exact hrest v hm
    · rw [if_neg hc]
      have hbs : bsize ≤ (lookupD domains x).length := not_lt.mp hc
      have hrest : ∃ v ∈ rest, (lookupD domains v).length < bsize := by
        obtain ⟨v, hv, hlt⟩ := h
        rcases List.mem_cons.mp hv with rfl | hm
        · exact absurd hlt hc
        · exact ⟨v, hm, hlt⟩
      obtain ⟨pre, y, suf, hdec, h1, h2, h3, h4⟩ := ih best _ hrest
      refine ⟨x :: pre, y, suf, by rw [hdec]; rfl, h1, h2, ?_, ?_⟩
      · intro v hv
        rcases List.mem_cons.mp hv with rfl | hm
        · exact le_of_lt (lt_of_lt_of_le h2 hbs)
        · exact h3 v hm
      · intro v hv
        rcases List.mem_cons.mp hv with rfl | hm
        · exact lt_of_lt_of_le h2 hbs
        · exact h4 v hm

/--
C8 (counterexample). As literally stated, MRV selection does not return a
variable for EVERY non-empty unassigned list: the source initializes
`best_size = 10**9` with a strict comparison, so when every unassigned
variable's domain has at least `10^9` values, `select_mrv` returns `None`
although the list is non-empty.
-/
theorem c8_select_mrv_cex :
    select_mrv ["A"] [("A", List.replicate (10 ^ 9) ("t", "r"))] = none ∧
    (["A"] : List String) ≠ [] := by
  refine ⟨?_, by simp⟩
  unfold select_mrv
  simp only [select_mrvAux, lookupD, lookupLast?, List.length_replicate]
  norm_num

/--
C8 (amended). Whenever some unassigned variable's current domain has fewer
than `10^9` values (in particular, for every non-empty unassigned list of any
realistic instance), `select_mrv` returns the unassigned variable with the
smallest current domain size, breaking ties in favor of the earliest position
in the caller-supplied list (every variable listed before the returned one
has a strictly larger domain); it returns `none` when the list is empty or
all domains have at least `10^9` values.
-/
theorem c8_select_mrv_spec (un : List String) (domains : Domains)
    (h : ∃ v ∈ un, (lookupD domains v).length < 10 ^ 9) :
    ∃ pre y suf, un = pre ++ y :: suf ∧
      select_mrv un domains = some y ∧
      (∀ v ∈ un, (lookupD domains y).length ≤ (lookupD domains v).length) ∧
      (∀ v ∈ pre, (lookupD domains y).length < (lookupD domains v).length) := by
  obtain ⟨pre, y, suf, hdec, h1, _, h3, h4⟩ :=
    select_mrvAux_found domains un none _ h
  exact ⟨pre, y, suf, hdec, h1, h3, h4⟩

/-- Witness for (amended) C8 at a concrete input: between "A" (two values)
and "B" (one value), MRV picks "B". -/
theorem c8_select_mrv_spec_witness :
    ∃ pre y suf, (["A", "B"] : List String) = pre ++ y :: suf ∧
      select_mrv ["A", "B"]
          [("A", [("1", "r"), ("2", "r")]), ("B", [("1", "r")])] = some y ∧
      (∀ v ∈ (["A", "B"] : List String),
        (lookupD [("A", [("1", "r"), ("2", "r")]), ("B", [("1", "r")])]
            y).length ≤
          (lookupD [("A", [("1", "r"), ("2", "r")]), ("B", [("1", "r")])]
            v).length) ∧
      (∀ v ∈ pre,
        (lookupD [("A", [("1", "r"), ("2", "r")]), ("B", [("1", "r")])]
            y).length <
          (lookupD [("A", [("1", "r"), ("2", "r")]), ("B", [("1", "r")])]
            v).length) :=
  c8_select_mrv_spec _ _
    ⟨"A", by simp, by
      have : lookupD [("A", [("1", "r"), ("2", "r")]), ("B", [("1", "r")])]
          "A" = [("1", "r"), ("2", "r")] := by rfl
      rw [this]
      norm_num⟩

end CSP

namespace CSP

/-! ### LCV ordering -/

instance : IsTotal (Nat × Value) (fun a b => a.1 ≤ b.1) :=
  ⟨fun a b => Nat.le_total a.1 b.1⟩

instance : IsTrans (Nat × Value) (fun a b => a.1 ≤ b.1) :=
  ⟨fun _ _ _ h1 h2 => Nat.le_trans h1 h2⟩

theorem orderedInsert_filter_key (a : Nat × Value) (n : Nat) :
    ∀ l : List (Nat × Value),
      (List.orderedInsert (fun x y => x.1 ≤ y.1) a l).filter
          (fun x => x.1 = n) =
        if a.1 = n then a :: l.filter (fun x => x.1 = n)
        else l.filter (fun x => x.1 = n) := by
  intro l
  induction l with
  | nil =>
    by_cases h : a.1 = n <;> simp [List.orderedInsert, h]
  | cons b rest ih =>
    simp only [List.orderedInsert]
    by_cases hab : a.1 ≤ b.1
    · rw [if_pos hab]
      by_cases ha : a.1 = n <;> simp [List.filter_cons, ha]
    · rw [if_neg hab]
      simp only [List.filter_cons]
      by_cases hb : b.1 = n
      · have ha : ¬(a.1 = n) := by
          intro hh
          exact hab (by omega)
        simp [hb, ih, ha]
      · simp [hb, ih]

theorem insertionSort_filter_key (n : Nat) :
    ∀ l : List (Nat × Value),
      (List.insertionSort (fun x y => x.1 ≤ y.1) l).filter
          (fun x => x.1 = n) =
        l.filter (fun x => x.1 = n) := by
  intro l
  induction l with
  | nil => rfl
  | cons a rest ih =>
    simp only [List.insertionSort]
    rw [orderedInsert_filter_key]
    by_cases h : a.1 = n <;> simp [List.filter_cons, h, ih]

/-- The projected elimination of one neighboring unassigned variable by
candidate `v`: some value in its current domain shares `v`'s timeslot and
conflicts (same room, or shared teacher, or intersecting groups). -/
def specElim (cbid : String → Option Course) (cv : Course) (domains : Domains)
    (v : Value) (o : String) : Bool :=
  match cbid o with
  | none => false
  | some co =>
    (lookupD domains o).any (fun ov =>
      ov.1 = v.1 && (ov.2 = v.2 || cv.teacher = co.teacher
        || cv.groups.any (fun g => g ∈ co.groups)))

/-- The elimination score of candidate `v`: the number of other unassigned
variables it eliminates under `specElim` (at most one per neighbor). -/
def specScore (cbid : String → Option Course) (cv : Course) (var : String)
    (domains : Domains) (un : List String) (v : Value) : Nat :=
  (un.filter (fun o => (o ≠ var) && specElim cbid cv domains v o)).length

theorem lcvScan_eq (cbid : String → Option Course) (var other : String)
    (v : Value) (cv co2 : Course) (hv : cbid var = some cv)
    (ho : cbid other = some co2) :
    ∀ dom : List Value,
      lcvScan cbid var other v dom =
        some (dom.any (fun ov =>
          ov.1 = v.1 && (ov.2 = v.2 || cv.teacher = co2.teacher
            || cv.groups.any (fun g => g ∈ co2.groups)))) := by
  intro dom
  induction dom with
  | nil => rfl
  | cons ov rest ih =>
    rw [lcvScan]
    by_cases h1 : ov.1 = v.1
    · rw [if_neg (by simp [h1])]
      by_cases h2 : ov.2 = v.2
      · rw [if_pos h2]
        simp [List.any_cons, h1, h2]
      · rw [if_neg h2]
        simp only [hv, ho]
        by_cases h3 : cv.teacher = co2.teacher
            ∨ cv.groups.any (fun g => g ∈ co2.groups)
        · rw [if_pos (by simpa using h3)]
          simp only [List.any_cons]
          have : (decide (ov.1 = v.1) &&
              (decide (ov.2 = v.2) || decide (cv.teacher = co2.teacher)
                || cv.groups.any fun g => decide (g ∈ co2.groups))) = true := by
            rcases h3 with h3 | h3 <;> simp [h1, h3]
          rw [this]
          simp
        · rw [if_neg (by simpa using h3)]
          rw [ih]
          push_neg at h3
          simp only [List.any_cons]
          have : (decide (ov.1 = v.1) &&
              (decide (ov.2 = v.2) || decide (cv.teacher = co2.teacher)
                || cv.groups.any fun g => decide (g ∈ co2.groups))) = false := by
            simp [h2, h3.1, h3.2]
          rw [this]
          simp
    · rw [if_pos (by simp [h1])]
      rw [ih]
      simp [List.any_cons, h1]

theorem lcvScore_eq (cbid : String → Option Course) (var : String)
    (domains : Domains) (v : Value) (cv : Course) (hv : cbid var = some cv) :
    ∀ un : List String, (∀ o ∈ un, o ≠ var → (cbid o).isSome) →
      lcvScore cbid var domains v un =
        some (specScore cbid cv var domains un v) := by
  intro un
  induction un with
  | nil => intro _; rfl
  | cons o rest ih =>
    intro hres
    rw [lcvScore]
    by_cases ho : o = var
    · rw [if_pos ho]
      rw [ih (fun q hq => hres q (List.mem_cons_of_mem _ hq))]
      simp [specScore, List.filter_cons, ho]
    · rw [if_neg ho]
      obtain ⟨co2, hco2⟩ := Option.isSome_iff_exists.mp
        (hres o (List.mem_cons_self _ _) ho)
      rw [lcvScan_eq cbid var o v cv co2 hv hco2]
      rw [ih (fun q hq => hres q (List.mem_cons_of_mem _ hq))]
      simp only [specScore, List.filter_cons]
      have hpred : ((o ≠ var : Bool) && specElim cbid cv domains v o) =
          (lookupD domains o).any (fun ov =>
            ov.1 = v.1 && (ov.2 = v.2 || cv.teacher = co2.teacher
              || cv.groups.any (fun g => g ∈ co2.groups))) := by
        simp only [specElim, hco2]
        simp [ho]
      rw [hpred]
      by_cases hb : (lookupD domains o).any (fun ov =>
          ov.1 = v.1 && (ov.2 = v.2 || cv.teacher = co2.teacher
            || cv.groups.any (fun g => g ∈ co2.groups)))
      · simp [hb]
      · simp [hb]

theorem scoreVals_map_snd (cbid : String → Option Course) (var : String)
    (domains : Domains) (un : List String) :
    ∀ (vals : List Value) (scored : List (Nat × Value)),
      scoreVals cbid var domains un vals = some scored →
      scored.map Prod.snd = vals := by
  intro vals
  induction vals with
  | nil =>
    intro scored h
    simp only [scoreVals, Option.some_inj] at h
    rw [← h]
    rfl
  | cons v vs ih =>
    intro scored h
    rw [scoreVals] at h
    rcases hsc : lcvScore cbid var domains v un with _ | n
    · rw [hsc] at h; exact absurd h (by simp)
    · rw [hsc] at h
      rcases hrest : scoreVals cbid var domains un vs with _ | rest
      · rw [hrest] at h; exact absurd h (by simp)
      · rw [hrest] at h
        obtain rfl : (n, v) :: rest = scored := by
          simpa using h
        simp [ih rest hrest]

theorem scoreVals_eq (cbid : String → Option Course) (var : String)
    (domains : Domains) (un : List String) (cv : Course)
    (hv : cbid var = some cv) (hres : ∀ o ∈ un, o ≠ var → (cbid o).isSome) :
    ∀ vals : List Value,
      scoreVals cbid var domains un vals =
        some (vals.map (fun v => (specScore cbid cv var domains un v, v))) := by
  intro vals
  induction vals with
  | nil => rfl
  | cons v vs ih =>
    rw [scoreVals]
    rw [lcvScore_eq cbid var domains v cv hv un hres]
    rw [ih]
    rfl

end CSP

namespace CSP

theorem lcv_order_mem (cbid : String → Option Course) (var : String)
    (domains : Domains) (un : List String) (l : List Value)
    (h : lcv_order cbid var domains un = some l) :
    ∀ v ∈ l, v ∈ lookupD domains var := by
  unfold lcv_order at h
  rcases hs : scoreVals cbid var domains un (lookupD domains var) with _ | scored
  · rw [hs] at h; exact absurd h (by simp)
  · rw [hs] at h
    obtain rfl : (List.insertionSort (fun a b => a.1 ≤ b.1) scored).map
        (fun p => p.2) = l := by simpa using h
    intro v hv
    obtain ⟨p, hp, rfl⟩ := List.mem_map.mp hv
    have hps : p ∈ scored := (List.perm_insertionSort _ scored).mem_iff.mp hp
    have := scoreVals_map_snd cbid var domains un _ scored hs
    rw [← this]
    exact List.mem_map.mpr ⟨p, hps, rfl⟩

theorem lcv_order_isSome (cbid : String → Option Course) (var : String)
    (domains : Domains) (un : List String) (cv : Course)
    (hv : cbid var = some cv) (hres : ∀ o ∈ un, o ≠ var → (cbid o).isSome) :
    (lcv_order cbid var domains un).isSome := by
  unfold lcv_order
  rw [scoreVals_eq cbid var domains un cv hv hres]
  simp

/--
C7. `lcv_order` returns exactly the variable's current domain values, sorted
ascending by the elimination score that counts, for each other unassigned
variable, whether some of its domain values sharing the candidate's timeslot
conflicts with the candidate (same room, or shared teacher, or intersecting
group sets) — at most one elimination counted per neighboring variable — and
the sort is stable: within each score class the original domain order is
preserved (the filter of the result by any score equals the filter of the
domain).
-/
theorem c7_lcv_order_spec (cbid : String → Option Course) (var : String)
    (domains : Domains) (un : List String) (cv : Course)
    (hv : cbid var = some cv) (hres : ∀ o ∈ un, o ≠ var → (cbid o).isSome) :
    ∃ l, lcv_order cbid var domains un = some l ∧
      List.Perm l (lookupD domains var) ∧
      List.Pairwise (fun a b => specScore cbid cv var domains un a ≤
        specScore cbid cv var domains un b) l ∧
      ∀ n, l.filter (fun v => specScore cbid cv var domains un v = n) =
        (lookupD domains var).filter
          (fun v => specScore cbid cv var domains un v = n) := by
  have hsv := scoreVals_eq cbid var domains un cv hv hres (lookupD domains var)
  refine ⟨_, by unfold lcv_order; rw [hsv], ?_, ?_, ?_⟩
  all_goals
    set score := specScore cbid cv var domains un with hscore
    set vals := lookupD domains var with hvals
    set scored := vals.map (fun v => (score v, v)) with hscored
    set sorted := List.insertionSort (fun a b => a.1 ≤ b.1) scored with hsorted
  · -- permutation
    have h1 : List.Perm sorted scored := List.perm_insertionSort _ scored
    have h2 : (sorted.map (fun p => p.2)).Perm (scored.map (fun p => p.2)) :=
      List.Perm.map _ h1
    have h3 : scored.map (fun p : Nat × Value => p.2) = vals := by
      rw [hscored, List.map_map]
      show vals.map (fun v : Value => v) = vals
      exact List.map_id' vals
    rw [h3] at h2
    exact h2
  · -- sortedness by score
    have hmem : ∀ p ∈ sorted, p.1 = score p.2 := by
      intro p hp
      have : p ∈ scored := (List.perm_insertionSort _ scored).mem_iff.mp hp
      obtain ⟨v, _, rfl⟩ := List.mem_map.mp this
      rfl
    have hsortd : List.Pairwise (fun a b : Nat × Value => a.1 ≤ b.1) sorted :=
      List.sorted_insertionSort _ scored
    have : List.Pairwise
        (fun a b : Nat × Value => score a.2 ≤ score b.2) sorted := by
      refine List.Pairwise.imp_of_mem ?_ hsortd
      intro a b ha hb hab
      rw [← hmem a ha, ← hmem b hb]
      exact hab
    exact List.pairwise_map.mpr this
  · -- stability: each score class keeps the original domain order
    intro n
    have hstep1 : (sorted.map (fun p => p.2)).filter (fun v => score v = n) =
        (sorted.filter (fun p => score p.2 = n)).map (fun p => p.2) := by
      rw [List.filter_map]
      rfl
    have hmem : ∀ p ∈ sorted, p.1 = score p.2 := by
      intro p hp
      have : p ∈ scored := (List.perm_insertionSort _ scored).mem_iff.mp hp
      obtain ⟨v, _, rfl⟩ := List.mem_map.mp this
      rfl
    have hstep2 : sorted.filter (fun p => score p.2 = n) =
        sorted.filter (fun p => p.1 = n) := by
      apply List.filter_congr
      intro p hp
      rw [hmem p hp]
    have hstep3 : sorted.filter (fun p => p.1 = n) =
        scored.filter (fun p => p.1 = n) := insertionSort_filter_key n scored
    have hmem2 : ∀ p ∈ scored, p.1 = score p.2 := by
      intro p hp
      obtain ⟨v, _, rfl⟩ := List.mem_map.mp hp
      rfl
    have hstep4 : scored.filter (fun p => p.1 = n) =
        scored.filter (fun p => score p.2 = n) := by
      apply List.filter_congr
      intro p hp
      rw [hmem2 p hp]
    have hstep5 : scored.filter (fun p : Nat × Value => score p.2 = n) =
        (vals.filter (fun v => score v = n)).map (fun v => (score v, v)) := by
      rw [hscored, List.filter_map]
      rfl
    have hstep6 : ((vals.filter (fun v => score v = n)).map
        (fun v => (score v, v))).map (fun p => p.2) =
        vals.filter (fun v => score v = n) := by
      rw [List.map_map]
      show (vals.filter (fun v => score v = n)).map (fun v : Value => v) = _
      exact List.map_id' _
    rw [hstep1, hstep2, hstep3, hstep4, hstep5, hstep6]

/-- Witness for C7 at a concrete input. -/
theorem c7_lcv_order_spec_witness :
    ∃ l, lcv_order (courseById [⟨"A", "t", ["g"], 1⟩, ⟨"B", "u", ["h"], 1⟩])
        "A" [("A", [("1", "r"), ("2", "r")]), ("B", [("1", "r")])]
        ["A", "B"] = some l ∧
      List.Perm l (lookupD
        [("A", [("1", "r"), ("2", "r")]), ("B", [("1", "r")])] "A") ∧
      List.Pairwise (fun a b =>
        specScore (courseById [⟨"A", "t", ["g"], 1⟩, ⟨"B", "u", ["h"], 1⟩])
          ⟨"A", "t", ["g"], 1⟩ "A"
          [("A", [("1", "r"), ("2", "r")]), ("B", [("1", "r")])]
          ["A", "B"] a ≤
        specScore (courseById [⟨"A", "t", ["g"], 1⟩, ⟨"B", "u", ["h"], 1⟩])
          ⟨"A", "t", ["g"], 1⟩ "A"
          [("A", [("1", "r"), ("2", "r")]), ("B", [("1", "r")])]
          ["A", "B"] b) l ∧
      ∀ n, l.filter (fun v =>
          specScore (courseById [⟨"A", "t", ["g"], 1⟩, ⟨"B", "u", ["h"], 1⟩])
            ⟨"A", "t", ["g"], 1⟩ "A"
            [("A", [("1", "r"), ("2", "r")]), ("B", [("1", "r")])]
            ["A", "B"] v = n) =
        (lookupD [("A", [("1", "r"), ("2", "r")]), ("B", [("1", "r")])]
          "A").filter (fun v =>
          specScore (courseById [⟨"A", "t", ["g"], 1⟩, ⟨"B", "u", ["h"], 1⟩])
            ⟨"A", "t", ["g"], 1⟩ "A"
            [("A", [("1", "r"), ("2", "r")]), ("B", [("1", "r")])]
            ["A", "B"] v = n) :=
  c7_lcv_order_spec _ _ _ _ _ (by rfl) (by decide)

end CSP

namespace CSP

/-! ### Forward checking: pruning and exact restoration -/

theorem violates_isSome (cbid : String → Option Course) (a : Assignment)
    (x : String) (v : Value) (c : Course) (hc : cbid x = some c)
    (hres : ∀ p ∈ a, (cbid p.1).isSome) : (violates cbid a x v).isSome := by
  unfold violates
  simp only [hc]
  rw [violatesAux_char cbid c v.1 v.2 a (fun p hp _ => hres p hp)]
  simp

theorem filterVals_sublist (cbid : String → Option Course) (a : Assignment)
    (other : String) :
    ∀ (vs vs' : List Value), filterVals cbid a other vs = some vs' →
      vs'.Sublist vs := by
  intro vs
  induction vs with
  | nil =>
    intro vs' h
    simp only [filterVals, Option.some_inj] at h
    rw [← h]
  | cons ov rest ih =>
    intro vs' h
    rw [filterVals] at h
    rcases hV : violates cbid a other ov with _ | b
    · rw [hV] at h; exact absurd h (by simp)
    · rw [hV] at h
      cases b with
      | true => exact (ih vs' h).cons ov
      | false =>
        rcases hF : filterVals cbid a other rest with _ | vs0
        · simp only [hF] at h; exact absurd h (by simp)
        · simp only [hF] at h
          obtain rfl : ov :: vs0 = vs' := by simpa using h
          exact (ih vs0 hF).cons₂ ov

theorem filterVals_isSome (cbid : String → Option Course) (a : Assignment)
    (other : String) (co : Course) (ho : cbid other = some co)
    (hres : ∀ p ∈ a, (cbid p.1).isSome) :
    ∀ vs : List Value, (filterVals cbid a other vs).isSome := by
  intro vs
  induction vs with
  | nil => simp [filterVals]
  | cons ov rest ih =>
    rw [filterVals]
    rcases hV : violates cbid a other ov with _ | b
    · exact absurd hV (by
        have := violates_isSome cbid a other ov co ho hres
        intro hh
        rw [hh] at this
        simp at this)
    · cases b with
      | true => simpa using ih
      | false =>
        rcases hF : filterVals cbid a other rest with _ | vs0
        · rw [hF] at ih; simp at ih
        · simp

theorem prune_keys (cbid : String → Option Course) (a : Assignment)
    (var : String) :
    ∀ (un : List String) (d d2 : Domains)
      (saved : List (String × List Value)) (fail : Bool),
      prune cbid a var un d = some (d2, saved, fail) →
      d2.map Prod.fst = d.map Prod.fst := by
  intro un
  induction un with
  | nil =>
    intro d d2 saved fail h
    simp only [prune, Option.some_inj, Prod.mk.injEq] at h
    rw [← h.1]
  | cons o rest ih =>
    intro d d2 saved fail h
    simp only [prune] at h
    by_cases ho : o = var
    · rw [if_pos ho] at h
      exact ih d d2 saved fail h
    · rw [if_neg ho] at h
      rcases hF : filterVals cbid a o (lookupD d o) with _ | newdom
      · simp only [hF] at h; exact absurd h (by simp)
      · simp only [hF] at h
        by_cases hE : newdom.isEmpty
        · rw [if_pos hE] at h
          obtain ⟨rfl, -, -⟩ : setD d o newdom = d2 ∧ _ ∧ _ := by
            simpa [Prod.mk.injEq] using h
          exact keys_setD d o newdom
        · rw [if_neg hE] at h
          rcases hPr : prune cbid a var rest (setD d o newdom) with
            _ | ⟨d2', saved', fail'⟩
          · simp only [hPr] at h; exact absurd h (by simp)
          · simp only [hPr] at h
            obtain ⟨rfl, -, rfl⟩ : d2' = d2 ∧ _ ∧ fail' = fail := by
              simpa [Prod.mk.injEq] using h
            rw [ih (setD d o newdom) d2' saved' fail' hPr]
            exact keys_setD d o newdom

theorem prune_saved_keys (cbid : String → Option Course) (a : Assignment)
    (var : String) :
    ∀ (un : List String) (d d2 : Domains)
      (saved : List (String × List Value)) (fail : Bool),
      prune cbid a var un d = some (d2, saved, fail) →
      ∀ q ∈ saved, q.1 ∈ un ∧ q.1 ≠ var := by
  intro un
  induction un with
  | nil =>
    intro d d2 saved fail h q hq
    simp only [prune, Option.some_inj, Prod.mk.injEq] at h
    obtain ⟨-, rfl, -⟩ := h
    simp at hq
  | cons o rest ih =>
    intro d d2 saved fail h q hq
    simp only [prune] at h
    by_cases ho : o = var
    · rw [if_pos ho] at h
      obtain ⟨h1, h2⟩ := ih d d2 saved fail h q hq
      exact ⟨List.mem_cons_of_mem _ h1, h2⟩
    · rw [if_neg ho] at h
      rcases hF : filterVals cbid a o (lookupD d o) with _ | newdom
      · simp only [hF] at h; exact absurd h (by simp)
      · simp only [hF] at h
        by_cases hE : newdom.isEmpty
        · rw [if_pos hE] at h
          obtain ⟨-, rfl, -⟩ : _ ∧ [(o, lookupD d o)] = saved ∧ _ := by
            simpa [Prod.mk.injEq] using h
          simp only [List.mem_singleton] at hq
          subst hq
          exact ⟨List.mem_cons_self _ _, ho⟩
        · rw [if_neg hE] at h
          rcases hPr : prune cbid a var rest (setD d o newdom) with
            _ | ⟨d2', saved', fail'⟩
          · simp only [hPr] at h; exact absurd h (by simp)
          · simp only [hPr] at h
            obtain ⟨-, rfl, -⟩ : _ ∧ (o, lookupD d o) :: saved' = saved ∧ _ := by
              simpa [Prod.mk.injEq] using h
            rcases List.mem_cons.mp hq with rfl | hm
            · exact ⟨List.mem_cons_self _ _, ho⟩
            · obtain ⟨h1, h2⟩ :=
                ih (setD d o newdom) d2' saved' fail' hPr q hm
              exact ⟨List.mem_cons_of_mem _ h1, h2⟩

theorem prune_restore (cbid : String → Option Course) (a : Assignment)
    (var : String) :
    ∀ (un : List String) (d d2 : Domains)
      (saved : List (String × List Value)) (fail : Bool),
      (d.map Prod.fst).Nodup → un.Nodup →
      prune cbid a var un d = some (d2, saved, fail) →
      restoreSaved saved d2 = d := by
  intro un
  induction un with
  | nil =>
    intro d d2 saved fail _ _ h
    simp only [prune, Option.some_inj, Prod.mk.injEq] at h
    obtain ⟨rfl, rfl, -⟩ := h
    rfl
  | cons o rest ih =>
    intro d d2 saved fail hndk hnd h
    simp only [List.nodup_cons] at hnd
    simp only [prune] at h
    by_cases ho : o = var
    · rw [if_pos ho] at h
      exact ih d d2 saved fail hndk hnd.2 h
    · rw [if_neg ho] at h
      rcases hF : filterVals cbid a o (lookupD d o) with _ | newdom
      · simp only [hF] at h; exact absurd h (by simp)
      · simp only [hF] at h
        by_cases hE : newdom.isEmpty
        · rw [if_pos hE] at h
          obtain ⟨rfl, rfl, -⟩ :
              setD d o newdom = d2 ∧ [(o, lookupD d o)] = saved ∧ _ := by
            simpa [Prod.mk.injEq] using h
          show restoreSaved [] (setD (setD d o newdom) o (lookupD d o)) = d
          show setD (setD d o newdom) o (lookupD d o) = d
          rw [setD_setD]
          exact setD_lookup_self d o hndk
        · rw [if_neg hE] at h
          rcases hPr : prune cbid a var rest (setD d o newdom) with
            _ | ⟨d2', saved', fail'⟩
          · simp only [hPr] at h; exact absurd h (by simp)
          · simp only [hPr] at h
            obtain ⟨rfl, rfl, -⟩ :
                d2' = d2 ∧ (o, lookupD d o) :: saved' = saved ∧ _ := by
              simpa [Prod.mk.injEq] using h
            have hkeys1 : ((setD d o newdom).map Prod.fst).Nodup := by
              rw [keys_setD]; exact hndk
            have hih := ih (setD d o newdom) d2' saved' fail'
              hkeys1 hnd.2 hPr
            show restoreSaved saved' (setD d2' o (lookupD d o)) = d
            have hcomm : restoreSaved saved' (setD d2' o (lookupD d o)) =
                setD (restoreSaved saved' d2') o (lookupD d o) := by
              apply restoreSaved_setD_comm
              intro q hq
              obtain ⟨hq1, -⟩ := prune_saved_keys cbid a var rest
                (setD d o newdom) d2' saved' fail' hPr q hq
              intro hqo
              exact hnd.1 (hqo ▸ hq1)
            rw [hcomm, hih, setD_setD]
            exact setD_lookup_self d o hndk

theorem prune_lookup_sublist (cbid : String → Option Course) (a : Assignment)
    (var : String) :
    ∀ (un : List String) (d d2 : Domains)
      (saved : List (String × List Value)) (fail : Bool),
      prune cbid a var un d = some (d2, saved, fail) →
      ∀ k, (lookupD d2 k).Sublist (lookupD d k) := by
  intro un
  induction un with
  | nil =>
    intro d d2 saved fail h k
    simp only [prune, Option.some_inj, Prod.mk.injEq] at h
    obtain ⟨rfl, -, -⟩ := h
    exact List.Sublist.refl _
  | cons o rest ih =>
    intro d d2 saved fail h k
    simp only [prune] at h
    by_cases ho : o = var
    · rw [if_pos ho] at h
      exact ih d d2 saved fail h k
    · rw [if_neg ho] at h
      rcases hF : filterVals cbid a o (lookupD d o) with _ | newdom
      · simp only [hF] at h; exact absurd h (by simp)
      · simp only [hF] at h
        have hsub1 : ∀ k, (lookupD (setD d o newdom) k).Sublist
            (lookupD d k) := by
          intro k
          rw [lookupD_setD]
          rcases hl : lookupLast? d k with _ | w
          · show List.Sublist [] _
            simp
          · by_cases hko : k = o
            · simp only [if_pos hko]
              have hw : lookupD d o = w := by
                rw [← hko]
                simp [lookupD, hl]
              have hnd2 := filterVals_sublist cbid a o (lookupD d o) newdom hF
              rw [hw] at hnd2
              have hlk : lookupD d k = w := by simp [lookupD, hl]
              rw [hlk]
              exact hnd2
            · simp only [if_neg hko]
              have hlk : lookupD d k = w := by simp [lookupD, hl]
              rw [hlk]
        by_cases hE : newdom.isEmpty
        · rw [if_pos hE] at h
          obtain ⟨rfl, -, -⟩ : setD d o newdom = d2 ∧ _ ∧ _ := by
            simpa [Prod.mk.injEq] using h
          exact hsub1 k
        · rw [if_neg hE] at h
          rcases hPr : prune cbid a var rest (setD d o newdom) with
            _ | ⟨d2', saved', fail'⟩
          · simp only [hPr] at h; exact absurd h (by simp)
          · simp only [hPr] at h
            obtain ⟨rfl, -, -⟩ : d2' = d2 ∧ _ ∧ _ := by
              simpa [Prod.mk.injEq] using h
            exact (ih (setD d o newdom) d2' saved' fail' hPr k).trans
              (hsub1 k)

theorem prune_isSome (cbid : String → Option Course) (a : Assignment)
    (var : String) (hres : ∀ p ∈ a, (cbid p.1).isSome) :
    ∀ (un : List String) (d : Domains), (∀ o ∈ un, (cbid o).isSome) →
      (prune cbid a var un d).isSome := by
  intro un
  induction un with
  | nil => intro d _; simp [prune]
  | cons o rest ih =>
    intro d hun
    simp only [prune]
    by_cases ho : o = var
    · rw [if_pos ho]
      exact ih d (fun q hq => hun q (List.mem_cons_of_mem _ hq))
    · rw [if_neg ho]
      obtain ⟨co, hco⟩ := Option.isSome_iff_exists.mp
        (hun o (List.mem_cons_self _ _))
      rcases hF : filterVals cbid a o (lookupD d o) with _ | newdom
      · exact absurd hF (by
          have := filterVals_isSome cbid a o co hco hres (lookupD d o)
          intro hh
          rw [hh] at this
          simp at this)
      · simp only [hF]
        by_cases hE : newdom.isEmpty
        · rw [if_pos hE]
          simp
        · rw [if_neg hE]
          have := ih (setD d o newdom)
            (fun q hq => hun q (List.mem_cons_of_mem _ hq))
          rcases hPr : prune cbid a var rest (setD d o newdom) with _ | r
          · rw [hPr] at this; simp at this
          · simp only [hPr]
            simp

end CSP

namespace CSP

/-! ### Engine lemmas: rollback of the assignment on failure -/

theorem tryVals_false_assignment (cbid : String → Option Course) (fc : Bool)
    (rec : SState → Option (Bool × SState)) (var : String) (un : List String)
    (hrecF : ∀ s s', rec s = some (false, s') → s'.assignment = s.assignment) :
    ∀ (vals : List Value) (s s' : SState), hasKey s.assignment var = false →
      tryVals cbid fc rec var un vals s = some (false, s') →
      s'.assignment = s.assignment := by
  intro vals
  induction vals with
  | nil =>
    intro s s' hk h
    simp only [tryVals, Option.some_inj, Prod.mk.injEq] at h
    rw [← h.2]
  | cons val rest ih =>
    intro s s' hk h
    simp only [tryVals] at h
    split at h
    · exact absurd h (by simp)
    · refine Eq.trans (ih _ s' ?_ h) rfl
      exact hk
    · have herase : (s.assignment ++ [(var, val)]).eraseP
          (fun p => p.1 = var) = s.assignment :=
        eraseP_append_key s.assignment var val hk
      split at h
      · exact absurd h (by simp)
      · rename_i d2 saved failed hP
        cases failed with
        | true =>
          -- propagation failure: restore and try the next sibling
          rw [if_pos (rfl : (true : Bool) = true)] at h
          have hk2 : hasKey ((s.assignment ++ [(var, val)]).eraseP
              (fun p => p.1 = var)) var = false := by
            rw [herase]; exact hk
          have := ih _ s' hk2 h
          rw [this]
          exact herase
        | false =>
          -- no propagation failure: recurse, restore on recursive failure
          rw [if_neg Bool.false_ne_true] at h
          split at h
          · exact absurd h (by simp)
          · exact absurd h (by simp)
          · rename_i s4 hR
            have h4 : s4.assignment = s.assignment ++ [(var, val)] :=
              hrecF _ _ hR
            have hk2 : hasKey (s4.assignment.eraseP
                (fun p => p.1 = var)) var = false := by
              rw [h4, herase]; exact hk
            have := ih _ s' hk2 h
            rw [this]
            show s4.assignment.eraseP (fun p => p.1 = var) = s.assignment
            rw [h4, herase]

theorem recurse2_false_assignment (cbid : String → Option Course)
    (ids : List String) (fc : Bool) (limit : Nat) :
    ∀ (fuel : Nat) (s s' : SState),
      recurse2 cbid ids fc limit fuel s = some (false, s') →
      s'.assignment = s.assignment := by
  intro fuel
  induction fuel with
  | zero => intro s s' h; simp [recurse2] at h
  | succ fuel ih =>
    intro s s' h
    simp only [recurse2] at h
    split at h
    · simp only [Option.some_inj, Prod.mk.injEq] at h
      rw [← h.2]
    · split at h
      · exact absurd h (by simp)
      · split at h
        · simp only [Option.some_inj, Prod.mk.injEq] at h
          rw [← h.2]
        · rename_i var hsel
          split at h
          · exact absurd h (by simp)
          · rename_i ordered hlcv
            split at h
            · simp only [Option.some_inj, Prod.mk.injEq] at h
              rw [← h.2]
            · have hvun : var ∈ ids.filter
                  (fun v => !(hasKey s.assignment v)) :=
                select_mrv_mem _ _ _ hsel
              have hk : hasKey s.assignment var = false := by
                have := List.of_mem_filter hvun
                simpa using this
              refine Eq.trans (tryVals_false_assignment cbid fc _ var _
                (fun t t' ht => ih t t' ht) ordered _ s' ?_ h) rfl
              exact hk

/-- After the deadline has been observed exceeded (the abstract clock is at or
past the budget), any recursive call returns `found = false` immediately:
only the clock advances (and the ghost observation is recorded); assignment,
domains, and both counters are untouched, and no candidate is tried. -/
theorem recurse2_deadline_exceeded (cbid : String → Option Course)
    (ids : List String) (fc : Bool) (limit : Nat) (fuel : Nat) (s : SState)
    (h : limit ≤ s.ticks) (hf : 0 < fuel) :
    recurse2 cbid ids fc limit fuel s = some (false,
      { s with ticks := s.ticks + 1,
               triesAtTimeout := match s.triesAtTimeout with
                 | some t => some t
                 | none => some s.tries }) := by
  cases fuel with
  | zero => exact absurd hf (by simp)
  | succ fuel =>
    simp only [recurse2]
    rw [if_pos (by omega : limit < s.ticks + 1)]

/--
C2 (amended). Once the deadline has been observed exceeded, every recursive
call entered afterwards (any state whose clock is at or past the budget)
returns `found = false` immediately at its own deadline check: no candidate
value is tried and no forward-checking pruning is performed at that new
depth, and assignment, domains, tries and backtracks are all untouched —
only the clock advances and the ghost observation is recorded.  (Pending
recursion levels, however, still try their remaining sibling candidates
while unwinding, which is what refutes the claim as originally stated.)
-/
theorem c2_after_deadline (cbid : String → Option Course)
    (ids : List String) (fc : Bool) (limit : Nat) (fuel : Nat) (s : SState)
    (h : limit ≤ s.ticks) (hf : 0 < fuel) :
    recurse2 cbid ids fc limit fuel s = some (false,
      { s with ticks := s.ticks + 1,
               triesAtTimeout := match s.triesAtTimeout with
                 | some t => some t
                 | none => some s.tries }) :=
  recurse2_deadline_exceeded cbid ids fc limit fuel s h hf

end CSP

namespace CSP

/-! ### Domain rollback on failure (forward checking and plain mode) -/

theorem tryVals_false_domains (cbid : String → Option Course) (fc : Bool)
    (rec : SState → Option (Bool × SState)) (var : String) (un : List String)
    (hrecD : ∀ s s', (s.domains.map Prod.fst).Nodup →
      rec s = some (false, s') → s'.domains = s.domains)
    (hund : un.Nodup) :
    ∀ (vals : List Value) (s s' : SState), (s.domains.map Prod.fst).Nodup →
      tryVals cbid fc rec var un vals s = some (false, s') →
      s'.domains = s.domains := by
  intro vals
  induction vals with
  | nil =>
    intro s s' _ h
    simp only [tryVals, Option.some_inj, Prod.mk.injEq] at h
    rw [← h.2]
  | cons val rest ih =>
    intro s s' hndk h
    simp only [tryVals] at h
    split at h
    · exact absurd h (by simp)
    · refine Eq.trans (ih _ s' ?_ h) rfl
      exact hndk
    · split at h
      · exact absurd h (by simp)
      · rename_i d2 saved failed hP
        have hkey2 : d2.map Prod.fst = s.domains.map Prod.fst := by
          cases fc with
          | false =>
            rw [if_neg Bool.false_ne_true] at hP
            obtain ⟨rfl, -, -⟩ : s.domains = d2 ∧ _ ∧ _ := by
              simpa [Prod.mk.injEq] using hP
            rfl
          | true =>
            rw [if_pos rfl] at hP
            exact prune_keys cbid _ var un s.domains d2 saved failed hP
        have hrest : restoreSaved saved d2 = s.domains := by
          cases fc with
          | false =>
            rw [if_neg Bool.false_ne_true] at hP
            obtain ⟨rfl, rfl, -⟩ : s.domains = d2 ∧ [] = saved ∧ _ := by
              simpa [Prod.mk.injEq] using hP
            rfl
          | true =>
            rw [if_pos rfl] at hP
            exact prune_restore cbid _ var un s.domains d2 saved failed
              hndk hund hP
        cases failed with
        | true =>
          rw [if_pos (rfl : (true : Bool) = true)] at h
          have hndk2 : ((restoreSaved saved d2).map Prod.fst).Nodup := by
            rw [hrest]; exact hndk
          have := ih _ s' hndk2 h
          rw [this]
          exact hrest
        | false =>
          rw [if_neg Bool.false_ne_true] at h
          split at h
          · exact absurd h (by simp)
          · exact absurd h (by simp)
          · rename_i s4 hR
            have hndk3 : d2.map Prod.fst |>.Nodup := by
              rw [hkey2]; exact hndk
            have h4 : s4.domains = d2 := hrecD _ _ hndk3 hR
            have hndk4 : ((restoreSaved saved s4.domains).map Prod.fst).Nodup := by
              rw [h4, hrest]; exact hndk
            have := ih _ s' hndk4 h
            rw [this]
            show restoreSaved saved s4.domains = s.domains
            rw [h4, hrest]

theorem recurse2_false_domains (cbid : String → Option Course)
    (ids : List String) (fc : Bool) (limit : Nat) (hids : ids.Nodup) :
    ∀ (fuel : Nat) (s s' : SState), (s.domains.map Prod.fst).Nodup →
      recurse2 cbid ids fc limit fuel s = some (false, s') →
      s'.domains = s.domains := by
  intro fuel
  induction fuel with
  | zero => intro s s' _ h; simp [recurse2] at h
  | succ fuel ih =>
    intro s s' hndk h
    simp only [recurse2] at h
    split at h
    · simp only [Option.some_inj, Prod.mk.injEq] at h
      rw [← h.2]
    · split at h
      · exact absurd h (by simp)
      · split at h
        · simp only [Option.some_inj, Prod.mk.injEq] at h
          rw [← h.2]
        · rename_i var hsel
          split at h
          · exact absurd h (by simp)
          · rename_i ordered hlcv
            split at h
            · simp only [Option.some_inj, Prod.mk.injEq] at h
              rw [← h.2]
            · refine Eq.trans (tryVals_false_domains cbid fc _ var _
                (fun t t' hnd ht => ih t t' hnd ht)
                (hids.filter _) ordered _ s' ?_ h) rfl
              exact hndk

/--
C10. Whenever `solve` reports `found = false` — by root-level exhaustion or
by timeout — the returned solution is the empty mapping: every tentative
assignment made during the search is popped before the search returns.
-/
theorem c10_failure_empty_solution (courses : List Course) (doms : Domains)
    (fc : Bool) (limit : Nat) (r : SearchResult)
    (h : backtrack_search courses doms fc limit = some r)
    (hf : r.found = false) : r.solution = [] := by
  simp only [backtrack_search] at h
  split at h
  · exact absurd h (by simp)
  · rename_i ok s' hR
    obtain rfl : (⟨ok, s'.ticks, s'.backtracks, s'.tries, s'.assignment,
        s'.triesAtTimeout⟩ : SearchResult) = r := by simpa using h
    cases ok with
    | true => exact absurd hf (by simp)
    | false =>
      show s'.assignment = []
      exact recurse2_false_assignment _ _ _ _ _ _ _ hR

/-- Witness for C10 on a concrete unsatisfiable instance (course of size 5,
only room of capacity 1): the search fails and exposes an empty solution. -/
theorem c10_failure_empty_solution_witness :
    ((backtrack_search [⟨"A", "t", ["g"], 5⟩]
        (build_domains [⟨"A", "t", ["g"], 5⟩] ["1"] [⟨"r", 1⟩]) false
        1000).getD ⟨false, 0, 0, 0, [], none⟩).solution = [] :=
  c10_failure_empty_solution [⟨"A", "t", ["g"], 5⟩]
    (build_domains [⟨"A", "t", ["g"], 5⟩] ["1"] [⟨"r", 1⟩]) false 1000
    ((backtrack_search [⟨"A", "t", ["g"], 5⟩]
        (build_domains [⟨"A", "t", ["g"], 5⟩] ["1"] [⟨"r", 1⟩]) false
        1000).getD ⟨false, 0, 0, 0, [], none⟩)
    (by rfl) (by rfl)

/--
C2 (counterexample). The claim that after the deadline is first observed
exceeded no additional candidate value is tried is false: with two same-
teacher courses "A" and "B" of three values each and a budget of 1 clock
unit, the deadline is first observed exceeded at the second deadline check,
when exactly 1 candidate had been tried (the ghost field records
`triesAtTimeout = some 1`), yet the root loop goes on to try its remaining
sibling candidates and the final record reports 3 tries (and a further
backtrack) before `found = false` is returned.
-/
theorem c2_timeout_cex :
    backtrack_search [⟨"A", "t", ["g"], 1⟩, ⟨"B", "t", ["h"], 1⟩]
        [("A", [("1", "r"), ("2", "r"), ("3", "r")]),
         ("B", [("1", "r"), ("2", "r"), ("3", "r")])] false 1 =
      some ⟨false, 4, 1, 3, [], some 1⟩ ∧ (3 : Nat) ≠ 1 :=
  ⟨by rfl, by norm_num⟩

/-- Witness for (amended) C2 at a concrete state whose clock is already past
the budget: the call fails immediately, only advancing the clock and
recording the ghost observation. -/
theorem c2_after_deadline_witness :
    recurse2 (courseById []) [] false 0 1 ⟨[], [], 0, 7, 5, none⟩ =
      some (false, ⟨[], [], 0, 7, 6, some 7⟩) :=
  c2_after_deadline (courseById []) [] false 0 1 ⟨[], [], 0, 7, 5, none⟩
    (by norm_num) (by norm_num)

/--
C4. In forward-checking mode the Domain store follows a strict stack
discipline: (1) whenever a recursive call fails (including every failed
tentative assignment inside it), the Domain mapping at its return is exactly
the one at its entry — each failed candidate restores the store from its
snapshot before the next sibling candidate is tried — and the variable's
Assignment entry is removed; (2) pruning only ever removes values: at any
child depth every variable's domain is a subsequence of its domain at the
parent depth.  (Stated for well-formed instances: distinct variable ids and
distinct domain-store keys, matching the dict-backed source.)
-/
theorem c4_fc_domain_discipline :
    (∀ (cbid : String → Option Course) (ids : List String)
       (limit fuel : Nat) (s s' : SState),
       ids.Nodup → (s.domains.map Prod.fst).Nodup →
       recurse2 cbid ids true limit fuel s = some (false, s') →
       s'.domains = s.domains ∧ s'.assignment = s.assignment) ∧
    (∀ (cbid : String → Option Course) (a : Assignment) (var : String)
       (un : List String) (d d2 : Domains)
       (saved : List (String × List Value)) (fail : Bool),
       prune cbid a var un d = some (d2, saved, fail) →
       ∀ k, (lookupD d2 k).Sublist (lookupD d k)) :=
  ⟨fun cbid ids limit fuel s s' hids hndk h =>
    ⟨recurse2_false_domains cbid ids true limit hids fuel s s' hndk h,
     recurse2_false_assignment cbid ids true limit fuel s s' h⟩,
   fun cbid a var un d d2 saved fail h =>
    prune_lookup_sublist cbid a var un d d2 saved fail h⟩

/-- Witness for C4: a failing forward-checking call on an unsatisfiable
instance returns with assignment and domains exactly restored, and a
concrete pruning step yields pointwise sub-domains. -/
theorem c4_fc_domain_discipline_witness :
    ((⟨[], [("A", [])], 1, 0, 1, none⟩ : SState).domains = [("A", [])] ∧
      (⟨[], [("A", [])], 1, 0, 1, none⟩ : SState).assignment = []) ∧
    ∀ k, (lookupD [("A", [("1", "r"), ("2", "r")]), ("B", [("2", "r")])]
        k).Sublist
      (lookupD [("A", [("1", "r"), ("2", "r")]), ("B", [("1", "r"), ("2", "r")])]
        k) :=
  ⟨c4_fc_domain_discipline.1 (courseById [⟨"A", "t", ["g"], 5⟩]) ["A"] 1000 2
      ⟨[], [("A", [])], 0, 0, 0, none⟩ ⟨[], [("A", [])], 1, 0, 1, none⟩
      (by simp) (by simp) (by rfl),
   c4_fc_domain_discipline.2 (courseById [⟨"A", "t", ["g"], 1⟩, ⟨"B", "u", ["h"], 1⟩])
      [("A", ("1", "r"))] "A" ["A", "B"]
      [("A", [("1", "r"), ("2", "r")]), ("B", [("1", "r"), ("2", "r")])]
      [("A", [("1", "r"), ("2", "r")]), ("B", [("2", "r")])]
      [("B", [("1", "r"), ("2", "r")])] false (by rfl)⟩

end CSP

namespace CSP

/-! ### Forward-checking vs plain mode: backtrack counts -/

/--
C3 (counterexample). Forward-checking dominance fails: on the 4-course
instance below (no timeout in either mode), plain mode finds a solution with
0 backtracks while forward-checking mode — whose pruned domains change the
MRV/LCV decisions — incurs 1 backtrack (and even one more try).
-/
theorem c3_fc_dominance_cex :
    backtrack_search
        [⟨"C0", "Z", [], 1⟩, ⟨"C1", "Y", ["g"], 1⟩, ⟨"C2", "Y", [], 1⟩,
         ⟨"C3", "X", ["g"], 1⟩]
        [("C0", [("0", "R0"), ("1", "R1")]),
         ("C1", [("0", "R0"), ("1", "R0"), ("1", "R1")]),
         ("C2", [("0", "R1")]),
         ("C3", [("0", "R0"), ("1", "R0")])] false 100000 =
      some ⟨true, 5, 0, 5,
        [("C2", ("0", "R1")), ("C0", ("1", "R1")), ("C3", ("0", "R0")),
         ("C1", ("1", "R0"))], none⟩ ∧
    backtrack_search
        [⟨"C0", "Z", [], 1⟩, ⟨"C1", "Y", ["g"], 1⟩, ⟨"C2", "Y", [], 1⟩,
         ⟨"C3", "X", ["g"], 1⟩]
        [("C0", [("0", "R0"), ("1", "R1")]),
         ("C1", [("0", "R0"), ("1", "R0"), ("1", "R1")]),
         ("C2", [("0", "R1")]),
         ("C3", [("0", "R0"), ("1", "R0")])] true 100000 =
      some ⟨true, 6, 1, 6,
        [("C2", ("0", "R1")), ("C0", ("1", "R1")), ("C1", ("1", "R0")),
         ("C3", ("0", "R0"))], none⟩ ∧
    (0 : Nat) < 1 :=
  ⟨by rfl, by rfl, by norm_num⟩

/--
C3 (amended). No uniform comparison holds between the two modes' backtrack
counts: forward checking can also strictly reduce backtracks, as on this
unsatisfiable 3-course instance (3 courses, one room, two timeslots, same
teacher), where plain mode backtracks 5 times and forward-checking mode only
3 times.  Together with the counterexample instance, the two modes'
backtrack counts are incomparable in general.
-/
theorem c3_fc_dominance_amended :
    backtrack_search [⟨"C0", "X", [], 1⟩, ⟨"C1", "X", [], 1⟩, ⟨"C2", "X", [], 1⟩]
        (build_domains
          [⟨"C0", "X", [], 1⟩, ⟨"C1", "X", [], 1⟩, ⟨"C2", "X", [], 1⟩]
          ["0", "1"] [⟨"R0", 1⟩]) false 100000 =
      some ⟨false, 5, 5, 10, [], none⟩ ∧
    backtrack_search [⟨"C0", "X", [], 1⟩, ⟨"C1", "X", [], 1⟩, ⟨"C2", "X", [], 1⟩]
        (build_domains
          [⟨"C0", "X", [], 1⟩, ⟨"C1", "X", [], 1⟩, ⟨"C2", "X", [], 1⟩]
          ["0", "1"] [⟨"R0", 1⟩]) true 100000 =
      some ⟨false, 3, 3, 4, [], none⟩ ∧
    (3 : Nat) < 5 :=
  ⟨by rfl, by rfl, by norm_num⟩

end CSP

namespace CSP

/-! ### Constraint soundness of successful searches -/

/-- Two assignment entries do not conflict: if they share a timeslot, their
teachers differ, their group sets are disjoint, and their rooms differ. -/
def noConflict (cbid : String → Option Course) (e1 e2 : String × Value) : Prop :=
  ∀ c1 c2, cbid e1.1 = some c1 → cbid e2.1 = some c2 → e1.2.1 = e2.2.1 →
    c1.teacher ≠ c2.teacher ∧ (∀ g ∈ c1.groups, g ∉ c2.groups) ∧
      e1.2.2 ≠ e2.2.2

theorem noConflict_symm (cbid : String → Option Course) :
    Symmetric (noConflict cbid) := by
  intro e1 e2 h c1 c2 h1 h2 hts
  obtain ⟨ht, hg, hr⟩ := h c2 c1 h2 h1 hts.symm
  exact ⟨Ne.symm ht, fun g hg1 hg2 => hg g hg2 hg1, Ne.symm hr⟩

theorem violates_false_push (cbid : String → Option Course) (a : Assignment)
    (var : String) (val : Value) (h : violates cbid a var val = some false) :
    ∀ e ∈ a, noConflict cbid e (var, val) := by
  unfold violates at h
  rcases hc : cbid var with _ | c
  · simp only [hc] at h
    exact absurd h (by simp)
  · simp only [hc] at h
    intro e he c1 c2 h1 h2 hts
    obtain rfl : c = c2 := by rw [hc] at h2; injection h2
    exact violatesAux_false cbid c val.1 val.2 a h e he hts c1 h1

theorem tryVals_pairwise (cbid : String → Option Course) (fc : Bool)
    (rec : SState → Option (Bool × SState)) (var : String) (un : List String)
    (hrecT : ∀ s s', List.Pairwise (noConflict cbid) s.assignment →
      rec s = some (true, s') → List.Pairwise (noConflict cbid) s'.assignment)
    (hrecF : ∀ s s', rec s = some (false, s') → s'.assignment = s.assignment) :
    ∀ (vals : List Value) (s s' : SState), hasKey s.assignment var = false →
      List.Pairwise (noConflict cbid) s.assignment →
      tryVals cbid fc rec var un vals s = some (true, s') →
      List.Pairwise (noConflict cbid) s'.assignment := by
  intro vals
  induction vals with
  | nil =>
    intro s s' _ _ h
    exact absurd h (by simp [tryVals])
  | cons val rest ih =>
    intro s s' hk hpw h
    simp only [tryVals] at h
    split at h
    · exact absurd h (by simp)
    · refine ih _ s' ?_ ?_ h
      · exact hk
      · exact hpw
    · rename_i hV
      have herase : (s.assignment ++ [(var, val)]).eraseP
          (fun p => p.1 = var) = s.assignment :=
        eraseP_append_key s.assignment var val hk
      have hpush : List.Pairwise (noConflict cbid)
          (s.assignment ++ [(var, val)]) := by
        rw [List.pairwise_append]
        refine ⟨hpw, by simp, ?_⟩
        intro e he b hb
        simp only [List.mem_singleton] at hb
        subst hb
        exact violates_false_push cbid s.assignment var val hV e he
      have hk2 : hasKey ((s.assignment ++ [(var, val)]).eraseP
          (fun p => p.1 = var)) var = false := by
        rw [herase]; exact hk
      have hpw2 : List.Pairwise (noConflict cbid)
          ((s.assignment ++ [(var, val)]).eraseP (fun p => p.1 = var)) := by
        rw [herase]; exact hpw
      split at h
      · exact absurd h (by simp)
      · rename_i d2 saved failed hP
        cases failed with
        | true =>
          rw [if_pos (rfl : (true : Bool) = true)] at h
          exact ih _ s' hk2 hpw2 h
        | false =>
          rw [if_neg Bool.false_ne_true] at h
          split at h
          · exact absurd h (by simp)
          · rename_i s5 hR
            obtain rfl : s5 = s' := by simpa using h
            exact hrecT _ _ hpush hR
          · rename_i s4 hR
            have h4 : s4.assignment = s.assignment ++ [(var, val)] :=
              hrecF _ _ hR
            have hk3 : hasKey (s4.assignment.eraseP
                (fun p => p.1 = var)) var = false := by
              rw [h4, herase]; exact hk
            have hpw3 : List.Pairwise (noConflict cbid)
                (s4.assignment.eraseP (fun p => p.1 = var)) := by
              rw [h4, herase]; exact hpw
            exact ih _ s' hk3 hpw3 h

theorem recurse2_pairwise (cbid : String → Option Course) (ids : List String)
    (fc : Bool) (limit : Nat) :
    ∀ (fuel : Nat) (s s' : SState),
      List.Pairwise (noConflict cbid) s.assignment →
      recurse2 cbid ids fc limit fuel s = some (true, s') →
      List.Pairwise (noConflict cbid) s'.assignment := by
  intro fuel
  induction fuel with
  | zero => intro s s' _ h; simp [recurse2] at h
  | succ fuel ih =>
    intro s s' hpw h
    simp only [recurse2] at h
    split at h
    · exact absurd h (by simp)
    · split at h
      · obtain rfl : _ = s' := by
          have := h
          simpa [Prod.mk.injEq] using this
        exact hpw
      · split at h
        · exact absurd h (by simp)
        · rename_i var hsel
          split at h
          · exact absurd h (by simp)
          · rename_i ordered hlcv
            split at h
            · exact absurd h (by simp)
            · have hvun : var ∈ ids.filter
                  (fun v => !(hasKey s.assignment v)) :=
                select_mrv_mem _ _ _ hsel
              have hk : hasKey s.assignment var = false := by
                have := List.of_mem_filter hvun
                simpa using this
              refine tryVals_pairwise cbid fc _ var _
                (fun t t' hp ht => ih t t' hp ht)
                (fun t t' ht =>
                  recurse2_false_assignment cbid ids fc limit fuel t t' ht)
                ordered _ s' ?_ ?_ h
              · exact hk
              · exact hpw

/--
C1. Constraint soundness: whenever `solve`/`backtrack_search` reports
`found = true`, in either mode, the returned solution assigns any two
distinct variables sharing a timeslot to different teachers, disjoint group
sets, and different rooms.
-/
theorem c1_constraint_soundness (courses : List Course) (doms : Domains)
    (fc : Bool) (limit : Nat) (r : SearchResult)
    (h : backtrack_search courses doms fc limit = some r)
    (hf : r.found = true) :
    ∀ x vx y vy, (x, vx) ∈ r.solution → (y, vy) ∈ r.solution → x ≠ y →
      ∀ cx cy, courseById courses x = some cx →
        courseById courses y = some cy → vx.1 = vy.1 →
        cx.teacher ≠ cy.teacher ∧ (∀ g ∈ cx.groups, g ∉ cy.groups) ∧
          vx.2 ≠ vy.2 := by
  simp only [backtrack_search] at h
  split at h
  · exact absurd h (by simp)
  · rename_i ok s' hR
    obtain rfl : (⟨ok, s'.ticks, s'.backtracks, s'.tries, s'.assignment,
        s'.triesAtTimeout⟩ : SearchResult) = r := by simpa using h
    cases ok with
    | false => exact absurd hf (by simp)
    | true =>
      have hpw : List.Pairwise (noConflict (courseById courses))
          s'.assignment :=
        recurse2_pairwise (courseById courses) _ fc limit _ _ s'
          List.Pairwise.nil hR
      intro x vx y vy hx hy hxy cx cy hcx hcy hts
      have hne : ((x, vx) : String × Value) ≠ (y, vy) := by
        intro hh
        exact hxy (congrArg Prod.fst hh)
      exact List.Pairwise.forall (noConflict_symm (courseById courses)) hpw
        hx hy hne cx cy hcx hcy hts

/-- Witness for C1 on a concrete solvable instance (two courses, one
timeslot, two rooms, so the two courses end up in the same timeslot): the
reported solution puts them with different teachers, disjoint groups, and
different rooms. -/
theorem c1_constraint_soundness_witness :
    ("t" : String) ≠ "u" ∧ (∀ g ∈ (["g"] : List String), g ∉ (["h"] : List String)) ∧
      ("r1" : String) ≠ "r2" :=
  c1_constraint_soundness [⟨"A", "t", ["g"], 1⟩, ⟨"B", "u", ["h"], 1⟩]
    (build_domains [⟨"A", "t", ["g"], 1⟩, ⟨"B", "u", ["h"], 1⟩]
      ["1"] [⟨"r1", 1⟩, ⟨"r2", 1⟩]) false 1000
    ((backtrack_search [⟨"A", "t", ["g"], 1⟩, ⟨"B", "u", ["h"], 1⟩]
        (build_domains [⟨"A", "t", ["g"], 1⟩, ⟨"B", "u", ["h"], 1⟩]
          ["1"] [⟨"r1", 1⟩, ⟨"r2", 1⟩]) false 1000).getD
      ⟨false, 0, 0, 0, [], none⟩)
    (by rfl) (by rfl) "A" ("1", "r1") "B" ("1", "r2")
    (by decide) (by decide) (by decide)
    ⟨"A", "t", ["g"], 1⟩ ⟨"B", "u", ["h"], 1⟩ (by rfl) (by rfl) (by rfl)

end CSP

namespace CSP

/-! ### Capacity soundness: values ever assigned come from the domain store -/

/-- Every value held for a key in the domain store satisfies `GV`. -/
def DomGood (GV : String → Value → Prop) (d : Domains) : Prop :=
  ∀ k, ∀ v ∈ lookupD d k, GV k v

/-- Every value assigned to a variable satisfies `GV`. -/
def AssignGood (GV : String → Value → Prop) (a : Assignment) : Prop :=
  ∀ p ∈ a, GV p.1 p.2

theorem DomGood_setD (GV : String → Value → Prop) (d : Domains) (k : String)
    (vs : List Value) (hd : DomGood GV d) (hvs : ∀ v ∈ vs, GV k v) :
    DomGood GV (setD d k vs) := by
  intro k' v hv
  rw [lookupD_setD] at hv
  rcases hl : lookupLast? d k' with _ | w
  · simp only [hl] at hv
    simp at hv
  · simp only [hl] at hv
    by_cases hk : k' = k
    · rw [if_pos hk] at hv
      rw [hk]
      exact hvs v hv
    · rw [if_neg hk] at hv
      apply hd k'
      simp [lookupD, hl]
      exact hv

theorem DomGood_restore (GV : String → Value → Prop) :
    ∀ (saved : List (String × List Value)) (d : Domains), DomGood GV d →
      (∀ q ∈ saved, ∀ v ∈ q.2, GV q.1 v) →
      DomGood GV (restoreSaved saved d) := by
  intro saved
  induction saved with
  | nil => intro d hd _; exact hd
  | cons q qs ih =>
    intro d hd hs
    show DomGood GV (restoreSaved qs (setD d q.1 q.2))
    refine ih _ ?_ (fun r hr => hs r (List.mem_cons_of_mem _ hr))
    exact DomGood_setD GV d q.1 q.2 hd (hs q (List.mem_cons_self _ _))

theorem prune_good (GV : String → Value → Prop)
    (cbid : String → Option Course) (a : Assignment) (var : String) :
    ∀ (un : List String) (d d2 : Domains)
      (saved : List (String × List Value)) (fail : Bool), DomGood GV d →
      prune cbid a var un d = some (d2, saved, fail) →
      DomGood GV d2 ∧ ∀ q ∈ saved, ∀ v ∈ q.2, GV q.1 v := by
  intro un
  induction un with
  | nil =>
    intro d d2 saved fail hd h
    simp only [prune, Option.some_inj, Prod.mk.injEq] at h
    obtain ⟨rfl, rfl, -⟩ := h
    exact ⟨hd, by simp⟩
  | cons o rest ih =>
    intro d d2 saved fail hd h
    simp only [prune] at h
    by_cases ho : o = var
    · rw [if_pos ho] at h
      exact ih d d2 saved fail hd h
    · rw [if_neg ho] at h
      rcases hF : filterVals cbid a o (lookupD d o) with _ | newdom
      · simp only [hF] at h
        exact absurd h (by simp)
      · simp only [hF] at h
        have hnew : ∀ v ∈ newdom, GV o v := by
          intro v hv
          exact hd o v ((filterVals_sublist cbid a o _ newdom hF).subset hv)
        have hd1 : DomGood GV (setD d o newdom) :=
          DomGood_setD GV d o newdom hd hnew
        by_cases hE : newdom.isEmpty
        · rw [if_pos hE] at h
          obtain ⟨rfl, rfl, -⟩ :
              setD d o newdom = d2 ∧ [(o, lookupD d o)] = saved ∧ _ := by
            simpa [Prod.mk.injEq] using h
          refine ⟨hd1, ?_⟩
          intro q hq
          simp only [List.mem_singleton] at hq
          subst hq
          exact fun v hv => hd o v hv
        · rw [if_neg hE] at h
          rcases hPr : prune cbid a var rest (setD d o newdom) with
            _ | ⟨d2', saved', fail'⟩
          · simp only [hPr] at h
            exact absurd h (by simp)
          · simp only [hPr] at h
            obtain ⟨rfl, rfl, -⟩ :
                d2' = d2 ∧ (o, lookupD d o) :: saved' = saved ∧ _ := by
              simpa [Prod.mk.injEq] using h
            obtain ⟨hg2, hgs⟩ := ih (setD d o newdom) d2' saved' fail' hd1 hPr
            refine ⟨hg2, ?_⟩
            intro q hq
            rcases List.mem_cons.mp hq with rfl | hm
            · exact fun v hv => hd o v hv
            · exact hgs q hm

theorem tryVals_good (GV : String → Value → Prop)
    (cbid : String → Option Course) (fc : Bool)
    (rec : SState → Option (Bool × SState)) (var : String) (un : List String)
    (hrec : ∀ s b s', DomGood GV s.domains → AssignGood GV s.assignment →
      rec s = some (b, s') →
      DomGood GV s'.domains ∧ AssignGood GV s'.assignment) :
    ∀ (vals : List Value) (s : SState) (b : Bool) (s' : SState),
      DomGood GV s.domains → AssignGood GV s.assignment →
      (∀ v ∈ vals, GV var v) →
      tryVals cbid fc rec var un vals s = some (b, s') →
      DomGood GV s'.domains ∧ AssignGood GV s'.assignment := by
  intro vals
  induction vals with
  | nil =>
    intro s b s' hd ha _ h
    simp only [tryVals, Option.some_inj, Prod.mk.injEq] at h
    rw [← h.2]
    exact ⟨hd, ha⟩
  | cons val rest ih =>
    intro s b s' hd ha hvals h
    simp only [tryVals] at h
    split at h
    · exact absurd h (by simp)
    · refine ih _ b s' ?_ ?_ (fun v hv => hvals v (List.mem_cons_of_mem _ hv)) h
      · exact hd
      · exact ha
    · rename_i hV
      have hpushA : AssignGood GV (s.assignment ++ [(var, val)]) := by
        intro p hp
        rcases List.mem_append.mp hp with hm | hm
        · exact ha p hm
        · simp only [List.mem_singleton] at hm
          subst hm
          exact hvals val (List.mem_cons_self _ _)
      have heraseA : AssignGood GV
          ((s.assignment ++ [(var, val)]).eraseP (fun p => p.1 = var)) :=
        fun p hp => hpushA p ((List.eraseP_sublist _).subset hp)
      split at h
      · exact absurd h (by simp)
      · rename_i d2 saved failed hP
        have hgood2 : DomGood GV d2 ∧ ∀ q ∈ saved, ∀ v ∈ q.2, GV q.1 v := by
          cases fc with
          | false =>
            rw [if_neg Bool.false_ne_true] at hP
            obtain ⟨rfl, rfl, -⟩ : s.domains = d2 ∧ [] = saved ∧ _ := by
              simpa [Prod.mk.injEq] using hP
            exact ⟨hd, by simp⟩
          | true =>
            rw [if_pos rfl] at hP
            exact prune_good GV cbid _ var un s.domains d2 saved failed hd hP
        have hrestD : DomGood GV (restoreSaved saved d2) :=
          DomGood_restore GV saved d2 hgood2.1 hgood2.2
        cases failed with
        | true =>
          rw [if_pos (rfl : (true : Bool) = true)] at h
          exact ih _ b s' hrestD heraseA
            (fun v hv => hvals v (List.mem_cons_of_mem _ hv)) h
        | false =>
          rw [if_neg Bool.false_ne_true] at h
          split at h
          · exact absurd h (by simp)
          · rename_i s5 hR
            obtain ⟨rfl, rfl⟩ : true = b ∧ s5 = s' := by simpa using h
            exact hrec _ _ _ hgood2.1 hpushA hR
          · rename_i s4 hR
            obtain ⟨hd4, ha4⟩ := hrec _ _ _ hgood2.1 hpushA hR
            have hrestD4 : DomGood GV (restoreSaved saved s4.domains) :=
              DomGood_restore GV saved s4.domains hd4 hgood2.2
            have heraseA4 : AssignGood GV
                (s4.assignment.eraseP (fun p => p.1 = var)) :=
              fun p hp => ha4 p ((List.eraseP_sublist _).subset hp)
            exact ih _ b s' hrestD4 heraseA4
              (fun v hv => hvals v (List.mem_cons_of_mem _ hv)) h

theorem recurse2_good (GV : String → Value → Prop)
    (cbid : String → Option Course) (ids : List String) (fc : Bool)
    (limit : Nat) :
    ∀ (fuel : Nat) (s : SState) (b : Bool) (s' : SState),
      DomGood GV s.domains → AssignGood GV s.assignment →
      recurse2 cbid ids fc limit fuel s = some (b, s') →
      DomGood GV s'.domains ∧ AssignGood GV s'.assignment := by
  intro fuel
  induction fuel with
  | zero => intro s b s' _ _ h; simp [recurse2] at h
  | succ fuel ih =>
    intro s b s' hd ha h
    simp only [recurse2] at h
    split at h
    · obtain ⟨-, rfl⟩ : false = b ∧ _ = s' := by
        simpa [Prod.mk.injEq] using h
      exact ⟨hd, ha⟩
    · split at h
      · obtain ⟨-, rfl⟩ : true = b ∧ _ = s' := by
          simpa [Prod.mk.injEq] using h
        exact ⟨hd, ha⟩
      · split at h
        · obtain ⟨-, rfl⟩ : false = b ∧ _ = s' := by
            simpa [Prod.mk.injEq] using h
          exact ⟨hd, ha⟩
        · rename_i var hsel
          split at h
          · exact absurd h (by simp)
          · rename_i ordered hlcv
            split at h
            · obtain ⟨-, rfl⟩ : false = b ∧ _ = s' := by
                simpa [Prod.mk.injEq] using h
              exact ⟨hd, ha⟩
            · have hvals : ∀ v ∈ ordered, GV var v := by
                intro v hv
                exact hd var v (lcv_order_mem cbid var _ _ ordered hlcv v hv)
              refine tryVals_good GV cbid fc _ var _
                (fun t bb t' hdt hat ht => ih t bb t' hdt hat ht)
                ordered _ b s' ?_ ?_ ?_ h
              · exact hd
              · exact ha
              · exact hvals

theorem lookupLast?_map_fst {α : Type} (f : Course → α) :
    ∀ (l : List Course) (k : String),
      lookupLast? (l.map (fun c => (c.id, f c))) k =
        (lookupLast? (l.map (fun c => (c.id, c))) k).map f := by
  intro l k
  induction l with
  | nil => rfl
  | cons c rest ih =>
    simp only [List.map_cons, lookupLast?, ih]
    rcases hX : lookupLast? (rest.map fun c => (c.id, c)) k with _ | w
    · simp only [hX]
      by_cases h : c.id = k <;> simp [h]
    · simp [hX]

theorem lookupD_build_domains (courses : List Course) (tss : List String)
    (rooms : List Room) (k : String) (c : Course)
    (hc : courseById courses k = some c) :
    lookupD (build_domains courses tss rooms) k =
      tss.flatMap (fun t =>
        (rooms.filter (fun rm => c.size ≤ rm.capacity)).map
          (fun rm => (t, rm.id))) := by
  unfold courseById at hc
  unfold lookupD build_domains
  rw [lookupLast?_map_fst (fun c => tss.flatMap (fun t =>
    (rooms.filter (fun rm => c.size ≤ rm.capacity)).map
      (fun rm => (t, rm.id)))) courses k]
  rw [hc]
  rfl

/--
C5. Capacity soundness: running either mode on the initial domain built by
`build_domains`, every successful solution assigns each variable a room of
sufficient capacity; and indeed the initial domain of each variable is
exactly the timeslot-major list of (timeslot, room) pairs whose room
capacity is at least the variable's required size, rooms in given order.
-/
theorem c5_capacity_soundness (courses : List Course) (tss : List String)
    (rooms : List Room) (fc : Bool) (limit : Nat) (r : SearchResult)
    (h : backtrack_search courses (build_domains courses tss rooms) fc limit =
      some r) (hf : r.found = true) :
    (∀ p ∈ r.solution, ∀ c, courseById courses p.1 = some c →
      ∃ rm ∈ rooms, rm.id = p.2.2 ∧ c.size ≤ rm.capacity) ∧
    (∀ k c, courseById courses k = some c →
      lookupD (build_domains courses tss rooms) k =
        tss.flatMap (fun t =>
          (rooms.filter (fun rm => c.size ≤ rm.capacity)).map
            (fun rm => (t, rm.id)))) := by
  refine ⟨?_, fun k c hc => lookupD_build_domains courses tss rooms k c hc⟩
  have hd0 : DomGood (fun k v => ∀ c, courseById courses k = some c →
      ∃ rm ∈ rooms, rm.id = v.2 ∧ c.size ≤ rm.capacity)
      (build_domains courses tss rooms) := by
    intro k v hv c hc
    rw [lookupD_build_domains courses tss rooms k c hc] at hv
    rw [List.mem_flatMap] at hv
    obtain ⟨t, -, hv⟩ := hv
    rw [List.mem_map] at hv
    obtain ⟨rm, hrm, rfl⟩ := hv
    rw [List.mem_filter] at hrm
    exact ⟨rm, hrm.1, rfl, by simpa using hrm.2⟩
  simp only [backtrack_search] at h
  split at h
  · exact absurd h (by simp)
  · rename_i ok s' hR
    obtain rfl : (⟨ok, s'.ticks, s'.backtracks, s'.tries, s'.assignment,
        s'.triesAtTimeout⟩ : SearchResult) = r := by simpa using h
    have := recurse2_good
      (fun k v => ∀ c, courseById courses k = some c →
        ∃ rm ∈ rooms, rm.id = v.2 ∧ c.size ≤ rm.capacity)
      (courseById courses) _ fc limit _ _ ok s' hd0 (by intro p hp; simp at hp)
      hR
    intro p hp c hc
    exact this.2 p hp c hc

/-- Witness for C5 on a concrete solvable instance. -/
theorem c5_capacity_soundness_witness :
    (∀ p ∈ ((backtrack_search [⟨"A", "t", ["g"], 1⟩, ⟨"B", "u", ["h"], 1⟩]
        (build_domains [⟨"A", "t", ["g"], 1⟩, ⟨"B", "u", ["h"], 1⟩]
          ["1", "2"] [⟨"r", 1⟩]) false 1000).getD
        ⟨false, 0, 0, 0, [], none⟩).solution,
      ∀ c, courseById [⟨"A", "t", ["g"], 1⟩, ⟨"B", "u", ["h"], 1⟩] p.1 =
          some c →
        ∃ rm ∈ [(⟨"r", 1⟩ : Room)], rm.id = p.2.2 ∧ c.size ≤ rm.capacity) ∧
    (∀ k c, courseById [⟨"A", "t", ["g"], 1⟩, ⟨"B", "u", ["h"], 1⟩] k =
        some c →
      lookupD (build_domains [⟨"A", "t", ["g"], 1⟩, ⟨"B", "u", ["h"], 1⟩]
          ["1", "2"] [⟨"r", 1⟩]) k =
        (["1", "2"] : List String).flatMap (fun t =>
          (([⟨"r", 1⟩] : List Room).filter
            (fun rm => c.size ≤ rm.capacity)).map (fun rm => (t, rm.id)))) :=
  c5_capacity_soundness [⟨"A", "t", ["g"], 1⟩, ⟨"B", "u", ["h"], 1⟩]
    ["1", "2"] [⟨"r", 1⟩] false 1000
    ((backtrack_search [⟨"A", "t", ["g"], 1⟩, ⟨"B", "u", ["h"], 1⟩]
        (build_domains [⟨"A", "t", ["g"], 1⟩, ⟨"B", "u", ["h"], 1⟩]
          ["1", "2"] [⟨"r", 1⟩]) false 1000).getD
      ⟨false, 0, 0, 0, [], none⟩)
    (by rfl) (by rfl)

end CSP

namespace CSP

/-! ### Totality: the search always returns a well-formed result -/

theorem hasKey_false_not_mem (a : Assignment) (k : String)
    (h : hasKey a k = false) : k ∉ a.map Prod.fst := by
  intro hm
  obtain ⟨p, hp, rfl⟩ := List.mem_map.mp hm
  have hh : a.any (fun q => q.1 = p.1) = true :=
    List.any_eq_true.mpr ⟨p, hp, by simp⟩
  rw [hasKey] at h
  rw [h] at hh
  simp at hh

theorem courseById_isSome (courses : List Course) (c : Course)
    (hc : c ∈ courses) : (courseById courses c.id).isSome := by
  induction courses with
  | nil => simp at hc
  | cons d rest ih =>
    show (lookupLast? ((d.id, d) :: rest.map (fun c => (c.id, c))) c.id).isSome
    simp only [lookupLast?]
    rcases hX : lookupLast? (rest.map (fun c => (c.id, c))) c.id with _ | w
    · rcases List.mem_cons.mp hc with rfl | hm
      · simp [hX]
      · have := ih hm
        unfold courseById at this
        rw [hX] at this
        simp at this
    · simp [hX]

theorem tryVals_total (cbid : String → Option Course) (fc : Bool)
    (rec : SState → Option (Bool × SState)) (var : String) (un : List String)
    (P : List String → Prop)
    (hrecF : ∀ s s', rec s = some (false, s') → s'.assignment = s.assignment)
    (hrecS : ∀ s2 : SState, P (s2.assignment.map Prod.fst) → (rec s2).isSome)
    (hvar : (cbid var).isSome)
    (hun : ∀ o ∈ un, (cbid o).isSome) :
    ∀ (vals : List Value) (s : SState),
      (∀ p ∈ s.assignment, (cbid p.1).isSome) →
      hasKey s.assignment var = false →
      P (s.assignment.map Prod.fst ++ [var]) →
      (tryVals cbid fc rec var un vals s).isSome := by
  intro vals
  induction vals with
  | nil =>
    intro s _ _ _
    simp [tryVals]
  | cons val rest ih =>
    intro s hres hk hP
    simp only [tryVals]
    obtain ⟨c, hc⟩ := Option.isSome_iff_exists.mp hvar
    have hvio := violates_isSome cbid s.assignment var val c hc hres
    rcases hV : violates cbid s.assignment var val with _ | b
    · rw [hV] at hvio; simp at hvio
    · cases b with
      | true =>
        refine ih _ ?_ ?_ ?_
        · exact hres
        · exact hk
        · exact hP
      | false =>
        have herase : (s.assignment ++ [(var, val)]).eraseP
            (fun p => p.1 = var) = s.assignment :=
          eraseP_append_key s.assignment var val hk
        have hresPush : ∀ p ∈ s.assignment ++ [(var, val)],
            (cbid p.1).isSome := by
          intro p hp
          rcases List.mem_append.mp hp with hm | hm
          · exact hres p hm
          · simp only [List.mem_singleton] at hm
            subst hm
            exact hvar
        have hPs : (if fc then
            prune cbid (s.assignment ++ [(var, val)]) var un s.domains
          else some (s.domains, [], false)).isSome := by
          cases fc with
          | false => simp
          | true =>
            rw [if_pos rfl]
            exact prune_isSome cbid _ var hresPush un s.domains hun
        rcases hP2 : (if fc then
            prune cbid (s.assignment ++ [(var, val)]) var un s.domains
          else some (s.domains, [], false)) with _ | ⟨d2, saved, failed⟩
        · rw [hP2] at hPs; simp at hPs
        · cases failed with
          | true =>
            show (tryVals cbid fc rec var un rest
              { assignment := (s.assignment ++ [(var, val)]).eraseP
                  (fun p => p.1 = var),
                domains := restoreSaved saved d2,
                backtracks := s.backtracks, tries := s.tries + 1,
                ticks := s.ticks,
                triesAtTimeout := s.triesAtTimeout }).isSome
            refine ih _ ?_ ?_ ?_
            · show ∀ p ∈ (s.assignment ++ [(var, val)]).eraseP
                  (fun p => p.1 = var), (cbid p.1).isSome
              rw [herase]
              exact hres
            · show hasKey ((s.assignment ++ [(var, val)]).eraseP
                  (fun p => p.1 = var)) var = false
              rw [herase]
              exact hk
            · show P (((s.assignment ++ [(var, val)]).eraseP
                  (fun p => p.1 = var)).map Prod.fst ++ [var])
              rw [herase]
              exact hP
          | false =>
            have hrecSome : (rec { s with
                tries := s.tries + 1,
                assignment := s.assignment ++ [(var, val)],
                domains := d2 }).isSome := by
              apply hrecS
              show P ((s.assignment ++ [(var, val)]).map Prod.fst)
              have hkeysP : ((s.assignment ++ [(var, val)]).map Prod.fst) =
                  s.assignment.map Prod.fst ++ [var] := by
                simp
              rw [hkeysP]
              exact hP
            obtain ⟨⟨b', s4⟩, hR⟩ := Option.isSome_iff_exists.mp hrecSome
            dsimp only
            rw [hR]
            cases b' with
            | true => rfl
            | false =>
              have h4 : s4.assignment = s.assignment ++ [(var, val)] :=
                hrecF _ _ hR
              show (tryVals cbid fc rec var un rest
                { assignment := s4.assignment.eraseP (fun p => p.1 = var),
                  domains := restoreSaved saved s4.domains,
                  backtracks := s4.backtracks, tries := s4.tries,
                  ticks := s4.ticks,
                  triesAtTimeout := s4.triesAtTimeout }).isSome
              refine ih _ ?_ ?_ ?_
              · show ∀ p ∈ s4.assignment.eraseP (fun p => p.1 = var),
                    (cbid p.1).isSome
                rw [h4, herase]
                exact hres
              · show hasKey (s4.assignment.eraseP (fun p => p.1 = var))
                    var = false
                rw [h4, herase]
                exact hk
              · show P ((s4.assignment.eraseP
                    (fun p => p.1 = var)).map Prod.fst ++ [var])
                rw [h4, herase]
                exact hP

theorem recurse2_total (cbid : String → Option Course) (ids : List String)
    (fc : Bool) (limit : Nat) (hids : ∀ i ∈ ids, (cbid i).isSome) :
    ∀ (fuel : Nat) (s : SState),
      (∀ p ∈ s.assignment, (cbid p.1).isSome) →
      (s.assignment.map Prod.fst).Nodup →
      (∀ k ∈ s.assignment.map Prod.fst, k ∈ ids) →
      ids.length + 1 ≤ fuel + s.assignment.length →
      (recurse2 cbid ids fc limit fuel s).isSome := by
  intro fuel
  induction fuel with
  | zero =>
    intro s _ hnd hsub hlen
    exfalso
    have hle : (s.assignment.map Prod.fst).length ≤ ids.length :=
      (List.subperm_of_subset hnd hsub).length_le
    rw [List.length_map] at hle
    omega
  | succ fuel ih =>
    intro s hres hnd hsub hlen
    simp only [recurse2]
    split
    · simp
    · split
      · simp
      · rcases hsel : select_mrv (ids.filter
            (fun v => !(hasKey s.assignment v))) s.domains with _ | var
        · simp
        · simp only [hsel]
          have hvun : var ∈ ids.filter (fun v => !(hasKey s.assignment v)) :=
            select_mrv_mem _ _ _ hsel
          have hvids : var ∈ ids := List.mem_of_mem_filter hvun
          have hvar : (cbid var).isSome := hids var hvids
          have hk : hasKey s.assignment var = false := by
            have := List.of_mem_filter hvun
            simpa using this
          obtain ⟨cv, hcv⟩ := Option.isSome_iff_exists.mp hvar
          have hunres : ∀ o ∈ ids.filter
              (fun v => !(hasKey s.assignment v)), (cbid o).isSome :=
            fun o ho => hids o (List.mem_of_mem_filter ho)
          have hlcvS := lcv_order_isSome cbid var s.domains _ cv hcv
            (fun o ho _ => hunres o ho)
          rcases hlcv : lcv_order cbid var s.domains
              (ids.filter (fun v => !(hasKey s.assignment v))) with
            _ | ordered
          · rw [hlcv] at hlcvS; simp at hlcvS
          · simp only [hlcv]
            split
            · simp
            · refine tryVals_total cbid fc _ var _
                (fun keys => keys.Nodup ∧ (∀ k ∈ keys, k ∈ ids) ∧
                  keys.length = s.assignment.length + 1)
                (fun t t' ht =>
                  recurse2_false_assignment cbid ids fc limit fuel t t' ht)
                ?_ hvar hunres ordered _ ?_ ?_ ?_
              · intro s2 hp
                apply ih s2
                · intro p hps
                  exact hids p.1 (hp.2.1 p.1
                    (List.mem_map.mpr ⟨p, hps, rfl⟩))
                · exact hp.1
                · exact hp.2.1
                · have : s2.assignment.length =
                      s.assignment.length + 1 := by
                    have := hp.2.2
                    rwa [List.length_map] at this
                  omega
              · exact hres
              · exact hk
              · refine ⟨?_, ?_, ?_⟩
                · rw [List.nodup_append]
                  refine ⟨hnd, by simp, ?_⟩
                  intro k hkm
                  simp only [List.mem_singleton]
                  intro hkv
                  subst hkv
                  exact hasKey_false_not_mem s.assignment k hk hkm
                · intro k hkm
                  rcases List.mem_append.mp hkm with hm | hm
                  · exact hsub k hm
                  · simp only [List.mem_singleton] at hm
                    subst hm
                    exact hvids
                · simp

theorem backtrack_search_total (courses : List Course) (doms : Domains)
    (fc : Bool) (limit : Nat) :
    ∃ r, backtrack_search courses doms fc limit = some r := by
  have hids : ∀ i ∈ courses.map (fun c => c.id),
      (courseById courses i).isSome := by
    intro i hi
    obtain ⟨c, hc, rfl⟩ := List.mem_map.mp hi
    exact courseById_isSome courses c hc
  have htot := recurse2_total (courseById courses)
    (courses.map (fun c => c.id)) fc limit hids (courses.length + 1)
    ⟨[], doms, 0, 0, 0, none⟩ (by simp) (by simp) (by simp)
    (by simp)
  simp only [backtrack_search]
  rcases hR : recurse2 (courseById courses) (courses.map (fun c => c.id)) fc
      limit (courses.length + 1) ⟨[], doms, 0, 0, 0, none⟩ with _ | ⟨ok, s'⟩
  · rw [hR] at htot; simp at htot
  · exact ⟨⟨ok, s'.ticks, s'.backtracks, s'.tries, s'.assignment,
      s'.triesAtTimeout⟩, by simp only [hR]⟩

/--
C9. Invoking `solve` with a time budget of 0 returns `found = false` with 0
assignments tried and 0 backtracks, failing at the very first deadline check
(under the abstract clock, elapsed time at the first check is strictly
positive, matching the claim's proviso); and in general, for every input —
any course list, any initial domain store, either mode, any budget — every
path through `solve` returns a well-formed result record (`some r`) rather
than failing: the fuel `courses.length + 1` always suffices and no lookup
can fail.
-/
theorem c9_zero_budget_and_totality :
    (∀ (courses : List Course) (doms : Domains) (fc : Bool),
      backtrack_search courses doms fc 0 =
        some ⟨false, 1, 0, 0, [], some 0⟩) ∧
    (∀ (courses : List Course) (doms : Domains) (fc : Bool) (limit : Nat),
      ∃ r, backtrack_search courses doms fc limit = some r) := by
  constructor
  · intro courses doms fc
    simp only [backtrack_search]
    rw [recurse2_deadline_exceeded (courseById courses)
      (courses.map (fun c => c.id)) fc 0 (courses.length + 1)
      ⟨[], doms, 0, 0, 0, none⟩ (by norm_num) (by norm_num)]
  · exact fun courses doms fc limit =>
      backtrack_search_total courses doms fc limit

end CSP
